import Mathlib

/-!
# Verification of the Ink weekly-insights core

Shallow embedding of the Insights analytics component (mood counts, time
windows, trends, themes, writing habits) and of the OpenAI response parser
(fence stripping, JSON extraction, defaulting), together with proofs about
the claims of the specification.
-/

namespace Ink

variable {α : Type _}

/-- JavaScript `Math.round`: round half toward positive infinity. -/
def jsRound (q : ℚ) : ℤ := ⌊q + 1/2⌋

/-- JS `Math.round (a / b)` for an integer numerator and a positive natural
denominator, phrased with integer floor division so the kernel can
evaluate it on concrete inputs. -/
def jsRoundDiv (a : ℤ) (b : ℕ) : ℤ := (2 * a + b) / (2 * (b : ℤ))

/-- Milliseconds in a day; `weekAgo.setDate(weekAgo.getDate() - 7)` is
modelled as subtracting 7 of these from the reference instant. -/
def dayMs : ℤ := 86400000

/-- Model of a JS `Date`: the instant (epoch milliseconds), plus the
derived weekday name (`toLocaleDateString` with long weekday) and the
hour of day (`getHours`), kept as independent observations. -/
structure DateT where
  time : ℤ
  weekday : String
  hour : ℕ
deriving DecidableEq

/-- A journal entry as consumed by the Insights component: `mood` is
`none` when the entry carries no (truthy) mood tag. -/
structure JournalEntry where
  id : String
  date : DateT
  mood : Option String
  content : List Char
deriving DecidableEq

/-- The update `counts[k] = (counts[k] || 0) + 1` on an insertion-ordered record:
bump an existing key in place, or append a fresh key at the end. -/
def bump {α : Type _} [DecidableEq α] (l : List (α × ℕ)) (k : α) : List (α × ℕ) :=
  match l with
  | [] => [(k, 1)]
  | (k', n) :: rest => if k' = k then (k', n + 1) :: rest else (k', n) :: bump rest k

/-- Value stored under a key in an insertion-ordered count record, 0 when
the key is absent. -/
def lookupCount {α : Type _} [DecidableEq α] (l : List (α × ℕ)) (k : α) : ℕ :=
  match l with
  | [] => 0
  | (k', n) :: rest => if k' = k then n else lookupCount rest k

/-- Model of `getMoodCounts` from the Insights component: iterates over the whole
entry collection and counts each truthy mood, in first-encounter order. -/
def getMoodCounts (entries : List JournalEntry) : List (String × ℕ) :=
  entries.foldl (fun acc e => match e.mood with | some m => bump acc m | none => acc) []

/-- Model of `totalWithMood`: sum of all mood counts. -/
def totalWithMood (entries : List JournalEntry) : ℕ :=
  ((getMoodCounts entries).map (·.2)).sum

/-- Insert into a count-descending list, before the first element of
count at most the inserted one (the placement a stable descending sort
by `b[1] - a[1]` gives to an earlier-indexed element). -/
def insertIntoDesc {α : Type _} (x : α × ℕ) : List (α × ℕ) → List (α × ℕ)
  | [] => [x]
  | y :: ys => if x.2 ≥ y.2 then x :: y :: ys else y :: insertIntoDesc x ys

/-- Stable sort by count descending, as `Array.prototype.sort` with the
comparator `(a, b) => b[1] - a[1]` (stable since ES2019). -/
def sortDesc {α : Type _} : List (α × ℕ) → List (α × ℕ)
  | [] => []
  | x :: xs => insertIntoDesc x (sortDesc xs)

/-- Model of `dominantMood`: first key of the count-descending sort of the mood
counts, i.e. `Object.entries(moodCounts).sort((a,b) => b[1]-a[1])[0]?.[0]`. -/
def dominantMood (entries : List JournalEntry) : Option String :=
  ((sortDesc (getMoodCounts entries)).head?).map (·.1)

/-- First element of the list attaining the maximal count: the
specification-side description of a stable descending sort's head. -/
def firstMax {α : Type _} : List (α × ℕ) → Option (α × ℕ)
  | [] => none
  | x :: xs =>
    match firstMax xs with
    | none => some x
    | some y => if y.2 > x.2 then some y else some x

/-- Mood percentage as rendered by the Mood Trends card:
`totalWithMood > 0 ? Math.round((count / totalWithMood) * 100) : 0`. -/
def moodPercentage (entries : List JournalEntry) (m : String) : ℤ :=
  if 0 < totalWithMood entries then
    jsRoundDiv ((lookupCount (getMoodCounts entries) m : ℤ) * 100) (totalWithMood entries)
  else 0

/-- Model of `weekEntries`: entries whose date is at or after `now − 7` days.
The source filter has no upper bound. -/
def weekEntries (entries : List JournalEntry) (now : ℤ) : List JournalEntry :=
  entries.filter (fun e => decide (now - 7 * dayMs ≤ e.date.time))

/-- Model of `prevWeekEntries`: entries in `[now − 14d, now − 7d)`. -/
def prevWeekEntries (entries : List JournalEntry) (now : ℤ) : List JournalEntry :=
  entries.filter (fun e =>
    decide (now - 14 * dayMs ≤ e.date.time ∧ e.date.time < now - 7 * dayMs))

/-- The closed direction union type of `getMoodTrend`. -/
inductive Direction where
  | up
  | down
  | neutral
deriving DecidableEq

/-- Result of `getMoodTrend`. -/
structure Trend where
  change : ℤ
  direction : Direction
deriving DecidableEq

/-- The local `thisWeekCount` of `getMoodTrend`: occurrences of the mood in the
current window. -/
def thisWeekCount (entries : List JournalEntry) (now : ℤ) (mood : String) : ℕ :=
  ((weekEntries entries now).filter (fun e => e.mood == some mood)).length

/-- The local `lastWeekCount` of `getMoodTrend`: occurrences of the mood in the
previous window. -/
def lastWeekCount (entries : List JournalEntry) (now : ℤ) (mood : String) : ℕ :=
  ((prevWeekEntries entries now).filter (fun e => e.mood == some mood)).length

/-- Model of `getMoodTrend` from the Insights component: counts the mood in the
two windows; with a zero previous count the trend is neutral, otherwise
the signed percent change is rounded first and both the magnitude and
the direction are read off the rounded value. -/
def getMoodTrend (entries : List JournalEntry) (now : ℤ) (mood : String) : Trend :=
  if lastWeekCount entries now mood = 0 then { change := 0, direction := .neutral }
  else
    let percentChange :=
      jsRoundDiv (((thisWeekCount entries now mood : ℤ) - (lastWeekCount entries now mood : ℤ)) * 100)
        (lastWeekCount entries now mood)
    { change := |percentChange|,
      direction :=
        if percentChange > 0 then .up
        else if percentChange < 0 then .down
        else .neutral }

/-- Model of `dayFrequency`: per-weekday entry counts over all entries, in
first-encounter order. -/
def dayFrequency (entries : List JournalEntry) : List (String × ℕ) :=
  entries.foldl (fun acc e => bump acc e.date.weekday) []

/-- JS `x || fallback` on an optional string. -/
def jsOrString (s : Option String) (fallback : String) : String :=
  match s with
  | some s => if s = "" then fallback else s
  | none => fallback

/-- Model of `mostCommonDay`: head of the count-descending sort of day
frequencies, with the literal `'Tuesday'` as the `||` fallback. -/
def mostCommonDay (entries : List JournalEntry) : String :=
  jsOrString (((sortDesc (dayFrequency entries)).head?).map (·.1)) "Tuesday"

/-- Model of `avgHour`: rounded mean of `getHours` over all entries, or the
literal 20 for an empty collection. -/
def avgHour (entries : List JournalEntry) : ℤ :=
  if 0 < entries.length then
    jsRoundDiv ((entries.map (fun e => e.date.hour)).sum : ℤ) entries.length
  else 20

/-- Test that `needle` is a prefix of `hay`. -/
def startsL (needle hay : List Char) : Bool :=
  match needle, hay with
  | [], _ => true
  | _ :: _, [] => false
  | a :: as, b :: bs => a = b && startsL as bs

/-- JS `hay.includes(needle)`: `needle` occurs contiguously in `hay`. -/
def includesL (hay needle : List Char) : Bool :=
  if startsL needle hay then true
  else
    match hay with
    | [] => false
    | _ :: t => includesL t needle

/-- JS `toLowerCase` on the ASCII content this component feeds it. -/
def lowerL (s : List Char) : List Char := s.map Char.toLower

/-- The fixed theme → keyword dictionary of `extractThemes`, in
declaration order. -/
def themeKeywords : List (String × List String) :=
  [("Work", ["work", "project", "meeting", "deadline", "presentation", "team", "office", "job"]),
   ("Family", ["family", "mom", "dad", "parent", "child", "kid", "sibling", "brother", "sister"]),
   ("Friends", ["friend", "conversation", "hang", "catch up", "connected"]),
   ("Health", ["health", "exercise", "workout", "run", "walk", "meditation", "yoga"]),
   ("Mindfulness", ["mindful", "meditation", "grateful", "reflect", "peace", "calm", "present"]),
   ("Nature", ["park", "sunset", "outdoor", "walk", "nature", "weather", "sky"]),
   ("Productivity", ["focus", "productive", "prioritize", "organize", "accomplish", "goals"]),
   ("Growth", ["learn", "growth", "improve", "better", "progress", "develop", "patient"]),
   ("Stress", ["stress", "overwhelm", "anxious", "worried", "pressure"]),
   ("Books", ["book", "read", "reading"])]

/-- One keyword test of `extractThemes`: bump the theme when the keyword
occurs in the lower-cased content. -/
def themeStepKw (contentLower : List Char) (th : String) (acc : List (String × ℕ))
    (kw : String) : List (String × ℕ) :=
  if includesL contentLower kw.data then bump acc th else acc

/-- The per-entry pass of `extractThemes`: every keyword of every theme
is tested against the lower-cased content. -/
def themeStepEntry (acc : List (String × ℕ)) (e : JournalEntry) : List (String × ℕ) :=
  let contentLower := lowerL e.content
  themeKeywords.foldl
    (fun acc p => p.2.foldl (themeStepKw contentLower p.1) acc) acc

/-- The record `themeCounts` as accumulated by `extractThemes` over the whole
collection, in insertion order. -/
def collectThemes (entries : List JournalEntry) : List (String × ℕ) :=
  entries.foldl themeStepEntry []

/-- Output row of `extractThemes`. -/
structure ThemeOut where
  name : String
  count : ℕ
deriving DecidableEq

/-- Model of `extractThemes`: sort the counts descending (stable) and keep the
first five rows. -/
def extractThemes (entries : List JournalEntry) : List ThemeOut :=
  ((sortDesc (collectThemes entries)).take 5).map (fun p => { name := p.1, count := p.2 })

/-- Number of keywords of theme `th` occurring in entry `e`'s
lower-cased content (0 when `th` is not in the dictionary). -/
def matchCount (e : JournalEntry) (th : String) : ℕ :=
  (((themeKeywords.lookup th).getD []).filter
    (fun kw => includesL (lowerL e.content) kw.data)).length

/-- Keyword hits of theme `th` among the rows of a dictionary slice. -/
def dictMatches (cl : List Char) (th : String) (dict : List (String × List String)) : ℕ :=
  ((dict.filter (fun p => p.1 == th)).map
    (fun p => (p.2.filter (fun kw => includesL cl kw.data)).length)).sum

/-- A journal entry with the given instant, mood and content. -/
def mkEntry (t : ℤ) (m : Option String) (c : List Char) : JournalEntry :=
  { id := "", date := { time := t, weekday := "Monday", hour := 0 }, mood := m, content := c }

/-- An entry thirty days in the past, far outside the current window. -/
def oldEntry : JournalEntry := mkEntry (-30 * dayMs) (some "joy") []

/-- An entry dated one day after the reference instant. -/
def futureEntry : JournalEntry := mkEntry dayMs none []

/-- An entry inside the current window. -/
def curEntry : JournalEntry := mkEntry (-1) (some "joy") []

/-- An entry inside the previous window. -/
def prevEntry : JournalEntry := mkEntry (-8 * dayMs) (some "joy") []

/-- Seven current-window and eight previous-window entries of one mood. -/
def trendEntries : List JournalEntry :=
  List.replicate 7 curEntry ++ List.replicate 8 prevEntry

/-- Four current-window and two previous-window entries of one mood. -/
def trendEntriesUp : List JournalEntry :=
  List.replicate 4 curEntry ++ List.replicate 2 prevEntry

/-- An entry whose lower-cased text contains the Mindfulness keywords
`meditation` and `calm` and no other keyword of that theme. -/
def meditationEntry : JournalEntry := mkEntry 0 none "meditation calm".toList

/-- An entry matching only the `Family` theme. -/
def familyEntry : JournalEntry := mkEntry 0 none "family".toList

/-- An entry matching only the `Work` theme. -/
def officeEntry : JournalEntry := mkEntry 0 none "office".toList

/-!
## The OpenAI response parser

Model of `extractJson` / `parseOpenAIInsights`: JSON values as parsed by
`JSON.parse` (numbers kept as the decimal numerals the text carries),
a fuel-indexed recursive-descent parser, the compact serializer
matching `JSON.stringify`, fenced-block stripping and the brace-span
fallback, and the defaulting pass of `parseOpenAIInsights`.
-/

/-- A decimal numeral as JSON text carries it: sign, integer part and
the fraction digits in order. -/
structure Dec where
  neg : Bool
  ipart : ℕ
  fdigits : List ℕ
deriving DecidableEq

/-- The fraction digits read as a rational in `[0, 1)`. -/
def fracVal (ds : List ℕ) : ℚ := ds.foldr (fun d acc => ((d : ℚ) + acc) / 10) 0

/-- Numeric value of a decimal numeral. -/
def Dec.toRat (d : Dec) : ℚ :=
  (if d.neg then -1 else 1) * ((d.ipart : ℚ) + fracVal d.fdigits)

/-- Digits of the fraction part are in range. -/
def decWfB (d : Dec) : Bool := d.fdigits.all (· < 10)

/-- The default confidence 0.5. -/
def decHalf : Dec := ⟨false, 0, [5]⟩

mutual
/-- A JSON value. -/
inductive Json where
  | null
  | bool (b : Bool)
  | num (d : Dec)
  | str (s : List Char)
  | arr (xs : JList)
  | obj (kvs : JObj)
deriving DecidableEq
/-- Elements of a JSON array. -/
inductive JList where
  | nil
  | cons (hd : Json) (tl : JList)
deriving DecidableEq
/-- Members of a JSON object, in textual order. -/
inductive JObj where
  | nil
  | cons (k : List Char) (v : Json) (tl : JObj)
deriving DecidableEq
end

/-- The opening brace character. -/
def lbrace : Char := Char.ofNat 123

/-- The closing brace character. -/
def rbrace : Char := Char.ofNat 125

/-- The backtick character of fenced code blocks. -/
def btick : Char := Char.ofNat 96

/-- The backslash character. -/
def bslash : Char := '\\'

/-- Digit character of a value below ten. -/
def digitChar (n : ℕ) : Char := Char.ofNat (48 + n)

/-- Decimal digits of a natural number, most significant first; the
fuel dominates the number of divisions by ten. -/
def natCharsAux : ℕ → ℕ → List Char
  | 0, _ => []
  | fuel + 1, n => if n = 0 then [] else natCharsAux fuel (n / 10) ++ [digitChar (n % 10)]

/-- Decimal numeral of a natural number. -/
def natChars (n : ℕ) : List Char := if n = 0 then ['0'] else natCharsAux (n + 1) n

/-- Lower-case hexadecimal digit of a value below sixteen. -/
def hexDigit (n : ℕ) : Char := if n < 10 then Char.ofNat (48 + n) else Char.ofNat (87 + n)

/-- The `JSON.stringify` escaping of a single character. -/
def escChar (c : Char) : List Char :=
  if c = '"' then [bslash, '"']
  else if c = bslash then [bslash, bslash]
  else if c = '\n' then [bslash, 'n']
  else if c = '\t' then [bslash, 't']
  else if c = '\r' then [bslash, 'r']
  else if c = Char.ofNat 8 then [bslash, 'b']
  else if c = Char.ofNat 12 then [bslash, 'f']
  else if c.toNat < 32 then
    [bslash, 'u', '0', '0', hexDigit (c.toNat / 16), hexDigit (c.toNat % 16)]
  else [c]

/-- The `JSON.stringify` escaping of a string body. -/
def escString (s : List Char) : List Char := (s.map escChar).flatten

/-- Serialization of a decimal numeral. -/
def serializeDec (d : Dec) : List Char :=
  (if d.neg then ['-'] else []) ++ natChars d.ipart ++
    (if d.fdigits = [] then [] else '.' :: d.fdigits.map digitChar)

mutual
/-- Compact `JSON.stringify` of a value. -/
def serialize : Json → List Char
  | .null => "null".toList
  | .bool true => "true".toList
  | .bool false => "false".toList
  | .num d => serializeDec d
  | .str s => '"' :: escString s ++ ['"']
  | .arr xs => '[' :: serializeItems xs ++ [']']
  | .obj kvs => lbrace :: serializeMembers kvs ++ [rbrace]
/-- Comma-separated serialization of array elements. -/
def serializeItems : JList → List Char
  | .nil => []
  | .cons x .nil => serialize x
  | .cons x (.cons y t) => serialize x ++ ',' :: serializeItems (.cons y t)
/-- Comma-separated serialization of object members. -/
def serializeMembers : JObj → List Char
  | .nil => []
  | .cons k v .nil => '"' :: escString k ++ '"' :: ':' :: serialize v
  | .cons k v (.cons k2 v2 t) =>
    '"' :: escString k ++ '"' :: ':' :: serialize v ++ ',' :: serializeMembers (.cons k2 v2 t)
end

mutual
/-- Digit well-formedness of every numeral in a value. -/
def jsonWfB : Json → Bool
  | .null => true
  | .bool _ => true
  | .num d => decWfB d
  | .str _ => true
  | .arr xs => jlistWfB xs
  | .obj kvs => jobjWfB kvs
/-- Digit well-formedness over array elements. -/
def jlistWfB : JList → Bool
  | .nil => true
  | .cons x t => jsonWfB x && jlistWfB t
/-- Digit well-formedness over object members. -/
def jobjWfB : JObj → Bool
  | .nil => true
  | .cons _ v t => jsonWfB v && jobjWfB t
end

/-- The whitespace characters `JSON.parse` skips between tokens. -/
def isJsonWs (c : Char) : Bool := c = ' ' || c = '\t' || c = '\n' || c = '\r'

/-- Skip inter-token whitespace. -/
def skipWs (s : List Char) : List Char := s.dropWhile isJsonWs

/-- ASCII decimal digit test. -/
def isDigitC (c : Char) : Bool := 48 ≤ c.toNat && c.toNat ≤ 57

/-- Value of an ASCII decimal digit. -/
def digitVal (c : Char) : ℕ := c.toNat - 48

/-- Value of a hexadecimal digit, either case. -/
def hexVal (c : Char) : Option ℕ :=
  if 48 ≤ c.toNat && c.toNat ≤ 57 then some (c.toNat - 48)
  else if 97 ≤ c.toNat && c.toNat ≤ 102 then some (c.toNat - 87)
  else if 65 ≤ c.toNat && c.toNat ≤ 70 then some (c.toNat - 55)
  else none

/-- Decoding of a single-character escape after a backslash. -/
def escDecode (e : Char) : Option Char :=
  if e = '"' then some '"'
  else if e = bslash then some bslash
  else if e = '/' then some '/'
  else if e = 'n' then some '\n'
  else if e = 't' then some '\t'
  else if e = 'r' then some '\r'
  else if e = 'b' then some (Char.ofNat 8)
  else if e = 'f' then some (Char.ofNat 12)
  else none

/-- Fuel-indexed string-body parser, positioned after the opening
quote; returns the decoded content and the input after the closing
quote. -/
def parseStrBody : ℕ → List Char → Option (List Char × List Char)
  | 0, _ => none
  | fuel + 1, input =>
    match input with
    | [] => none
    | c :: rest =>
      if c = '"' then some ([], rest)
      else if c = bslash then
        match rest with
        | [] => none
        | e :: rest2 =>
          if e = 'u' then
            match rest2 with
            | h1 :: h2 :: h3 :: h4 :: rest3 =>
              match hexVal h1, hexVal h2, hexVal h3, hexVal h4 with
              | some a, some b, some c3, some d =>
                (parseStrBody fuel rest3).map
                  (fun p => (Char.ofNat (4096 * a + 256 * b + 16 * c3 + d) :: p.1, p.2))
              | _, _, _, _ => none
            | _ => none
          else
            match escDecode e with
            | some ch => (parseStrBody fuel rest2).map (fun p => (ch :: p.1, p.2))
            | none => none
      else (parseStrBody fuel rest).map (fun p => (c :: p.1, p.2))

/-- Value of a run of decimal digit characters. -/
def digitsVal (ds : List Char) : ℕ := ds.foldl (fun acc c => 10 * acc + digitVal c) 0

/-- Number parser, positioned after an optional leading minus sign. -/
def parseNum (s : List Char) (neg : Bool) : Option (Dec × List Char) :=
  let ds := s.takeWhile isDigitC
  let r1 := s.dropWhile isDigitC
  if ds.isEmpty then none
  else
    match r1 with
    | '.' :: r2 =>
      let fs := r2.takeWhile isDigitC
      let r3 := r2.dropWhile isDigitC
      if fs.isEmpty then none
      else some (⟨neg, digitsVal ds, fs.map digitVal⟩, r3)
    | _ => some (⟨neg, digitsVal ds, []⟩, r1)

mutual
/-- Fuel-indexed JSON value parser. -/
def parseVal : ℕ → List Char → Option (Json × List Char)
  | 0, _ => none
  | fuel + 1, s =>
    match skipWs s with
    | [] => none
    | c :: rest =>
      if c = lbrace then
        match skipWs rest with
        | c2 :: rest2 =>
          if c2 = rbrace then some (.obj .nil, rest2)
          else (parseMembers fuel (c2 :: rest2)).map (fun p => (.obj p.1, p.2))
        | [] => none
      else if c = '[' then
        match skipWs rest with
        | c2 :: rest2 =>
          if c2 = ']' then some (.arr .nil, rest2)
          else (parseItems fuel (c2 :: rest2)).map (fun p => (.arr p.1, p.2))
        | [] => none
      else if c = '"' then
        (parseStrBody fuel rest).map (fun p => (.str p.1, p.2))
      else if c = '-' then (parseNum rest true).map (fun p => (.num p.1, p.2))
      else if isDigitC c then (parseNum (c :: rest) false).map (fun p => (.num p.1, p.2))
      else if c = 't' then
        match rest with
        | 'r' :: 'u' :: 'e' :: r => some (.bool true, r)
        | _ => none
      else if c = 'f' then
        match rest with
        | 'a' :: 'l' :: 's' :: 'e' :: r => some (.bool false, r)
        | _ => none
      else if c = 'n' then
        match rest with
        | 'u' :: 'l' :: 'l' :: r => some (.null, r)
        | _ => none
      else none
/-- Fuel-indexed parser of the elements of a nonempty array. -/
def parseItems : ℕ → List Char → Option (JList × List Char)
  | 0, _ => none
  | fuel + 1, s =>
    match parseVal fuel s with
    | none => none
    | some (v, r) =>
      match skipWs r with
      | c :: r2 =>
        if c = ']' then some (.cons v .nil, r2)
        else if c = ',' then (parseItems fuel r2).map (fun p => (.cons v p.1, p.2))
        else none
      | [] => none
/-- Fuel-indexed parser of the members of a nonempty object. -/
def parseMembers : ℕ → List Char → Option (JObj × List Char)
  | 0, _ => none
  | fuel + 1, s =>
    match skipWs s with
    | c :: rest =>
      if c = '"' then
        match parseStrBody fuel rest with
        | none => none
        | some (k, r1) =>
          match skipWs r1 with
          | c2 :: r2 =>
            if c2 = ':' then
              match parseVal fuel r2 with
              | none => none
              | some (v, r3) =>
                match skipWs r3 with
                | c3 :: r4 =>
                  if c3 = rbrace then some (.cons k v .nil, r4)
                  else if c3 = ',' then
                    (parseMembers fuel r4).map (fun p => (.cons k v p.1, p.2))
                  else none
                | [] => none
            else none
          | [] => none
      else none
    | [] => none
end

/-- Model of `JSON.parse`: parse a complete text, requiring only whitespace after
the value. -/
def jsonParse (s : List Char) : Except String Json :=
  match parseVal (s.length + 1) s with
  | none => .error "Unexpected token in JSON"
  | some (v, r) =>
    if (skipWs r).isEmpty then .ok v
    else .error "Unexpected non-whitespace character after JSON data"

/-- The whitespace class of JS `trim` and of the regex `\s`, on the
characters this component meets. -/
def isTrimWs (c : Char) : Bool :=
  c = ' ' || c = '\t' || c = '\n' || c = '\r' || c = Char.ofNat 11 || c = Char.ofNat 12

/-- JS `String.prototype.trim`. -/
def trimL (s : List Char) : List Char :=
  ((s.dropWhile isTrimWs).reverse.dropWhile isTrimWs).reverse

/-- The replace of `^`+“```”+`(?:json)?\s*\n?`: strip a leading fence
marker, an optional `json` tag and the whitespace run after them; leave
the text unchanged when it does not start with a fence. -/
def stripFenceStart (s : List Char) : List Char :=
  if startsL [btick, btick, btick] s then
    let r := s.drop 3
    let r2 := if startsL ['j', 's', 'o', 'n'] r then r.drop 4 else r
    r2.dropWhile isTrimWs
  else s

/-- The replace of `\n?`+“```”+`\s*$`: strip a trailing fence marker,
the whitespace run after it and one optional newline before it; leave
the text unchanged when no trailing fence is present. -/
def stripFenceEnd (s : List Char) : List Char :=
  let r := s.reverse
  let r1 := r.dropWhile isTrimWs
  if startsL [btick, btick, btick] r1 then
    let r2 := r1.drop 3
    let r3 := match r2 with
      | c :: t => if c = '\n' then t else r2
      | [] => r2
    r3.reverse
  else s

/-- The cleaned text `extractJson` hands to the direct parse:
`text.trim()` then the two fence replaces then `.trim()`. -/
def cleanOf (text : List Char) : List Char :=
  trimL (stripFenceEnd (stripFenceStart (trimL text)))

/-- The match of the greedy regex `\{[\s\S]*\}`: from the first opening
brace to the last closing brace, when the latter comes after the
former. -/
def braceSpan (s : List Char) : Option (List Char) :=
  match s.findIdx? (· = lbrace), s.reverse.findIdx? (· = rbrace) with
  | some i, some rj =>
    let j := s.length - 1 - rj
    if i < j then some ((s.drop i).take (j - i + 1)) else none
  | _, _ => none

/-- A raised `OpenAIParseError`: message, the original raw text, and the
underlying parser's message. -/
structure PErr where
  message : String
  rawText : List Char
  parseError : Option String
deriving DecidableEq

/-- Model of `extractJson`: trim and strip fences, attempt the direct parse, fall
back to the brace span, and on double failure raise an error carrying
the original pre-strip text and the underlying message. -/
def extractJson (text : List Char) : Except PErr Json :=
  match jsonParse (cleanOf text) with
  | .ok v => .ok v
  | .error directErr =>
    match braceSpan (cleanOf text) with
    | none => .error ⟨"No JSON found in response", text, some directErr⟩
    | some span =>
      match jsonParse span with
      | .ok v => .ok v
      | .error regexErr => .error ⟨"Failed to parse JSON from response", text, some regexErr⟩

/-- The `howYouFelt` key. -/
def keyHowYouFelt : List Char := "howYouFelt".toList

/-- The `weeklySummary` key. -/
def keyWeeklySummary : List Char := "weeklySummary".toList

/-- The `moodDrivers` key. -/
def keyMoodDrivers : List Char := "moodDrivers".toList

/-- The `patterns` key. -/
def keyPatterns : List Char := "patterns".toList

/-- The `suggestions` key. -/
def keySuggestions : List Char := "suggestions".toList

/-- The `confidence` key. -/
def keyConfidence : List Char := "confidence".toList

/-- Property access on a parsed object: `JSON.parse` assigns textually,
so with duplicate keys the last member wins; access on a non-object
yields nothing. -/
def lookupLast : JObj → List Char → Option Json
  | .nil, _ => none
  | .cons k' v t, k =>
    match lookupLast t k with
    | some r => some r
    | none => if k' = k then some v else none

/-- Access `parsed?.field` on an arbitrary parsed value. -/
def getField (j : Json) (k : List Char) : Option Json :=
  match j with
  | .obj kvs => lookupLast kvs k
  | _ => none

/-- The numeral denotes zero. -/
def decIsZero (d : Dec) : Bool := d.ipart = 0 && d.fdigits.all (· = 0)

/-- JS truthiness of a JSON value. -/
def jsTruthy : Json → Bool
  | .null => false
  | .bool b => b
  | .num d => !(decIsZero d)
  | .str s => !s.isEmpty
  | .arr _ => true
  | .obj _ => true

mutual
/-- JS `String(...)` coercion of a JSON value. -/
def jsToString : Json → List Char
  | .null => "null".toList
  | .bool true => "true".toList
  | .bool false => "false".toList
  | .num d => serializeDec d
  | .str s => s
  | .arr xs => jsToStringItems xs
  | .obj _ => "[object Object]".toList
/-- Model of `Array.prototype.toString`: elements joined by commas, null
elements rendered empty. -/
def jsToStringItems : JList → List Char
  | .nil => []
  | .cons x .nil =>
    match x with
    | .null => []
    | _ => jsToString x
  | .cons x (.cons y t) =>
    (match x with
      | .null => []
      | _ => jsToString x) ++ ',' :: jsToStringItems (.cons y t)
end

/-- JS `x || ''` over an optional field value. -/
def jsOrEmptyStr (x : Option Json) : Json :=
  match x with
  | some v => if jsTruthy v then v else .str []
  | none => .str []

/-- The guard `Array.isArray(x) ? x : []` over an optional field value. -/
def arrOrEmpty (x : Option Json) : JList :=
  match x with
  | some (.arr xs) => xs
  | _ => .nil

/-- The guard `typeof x === 'number' ? x : 0.5` over an optional field value. -/
def numOrHalf (x : Option Json) : Dec :=
  match x with
  | some (.num d) => d
  | _ => decHalf

/-- The result record built by `parseOpenAIInsights`; `weeklySummary`
keeps whatever (truthy) runtime value the JSON carried. -/
structure InsightResponse where
  howYouFelt : List Char
  weeklySummary : Json
  moodDrivers : JList
  patterns : JList
  suggestions : JList
  confidence : Dec
deriving DecidableEq

/-- The defaulting pass of `parseOpenAIInsights` over a parsed value. -/
def parseFields (parsed : Json) : InsightResponse :=
  { howYouFelt := trimL (jsToString (jsOrEmptyStr (getField parsed keyHowYouFelt)))
    weeklySummary := jsOrEmptyStr (getField parsed keyWeeklySummary)
    moodDrivers := arrOrEmpty (getField parsed keyMoodDrivers)
    patterns := arrOrEmpty (getField parsed keyPatterns)
    suggestions := arrOrEmpty (getField parsed keySuggestions)
    confidence := numOrHalf (getField parsed keyConfidence) }

/-- Model of `parseOpenAIInsights`: extract the JSON, then apply the defaulting
pass; parse errors propagate. -/
def parseOpenAIInsights (text : List Char) : Except PErr InsightResponse :=
  (extractJson text).map parseFields

/-- The optional field value is an array. -/
def isArrOpt : Option Json → Bool
  | some (.arr _) => true
  | _ => false

/-- The optional field value is a number. -/
def isNumOpt : Option Json → Bool
  | some (.num _) => true
  | _ => false

/-- A list position at which a JSON number may legitimately stop: the
end of input or a separator that is neither a digit nor a dot. -/
def numStop (rest : List Char) : Prop :=
  rest = [] ∨ ∃ c t, rest = c :: t ∧ isDigitC c = false ∧ c ≠ '.'

mutual
/-- Fuel needed by `parseVal` to read back a serialized value. -/
def jsize : Json → ℕ
  | .null => 1
  | .bool _ => 1
  | .num _ => 1
  | .str s => s.length + 2
  | .arr xs => 1 + jsizeL xs
  | .obj kvs => 1 + jsizeO kvs
/-- Fuel needed by `parseItems` for a list of elements. -/
def jsizeL : JList → ℕ
  | .nil => 0
  | .cons x t => 1 + jsize x + jsizeL t
/-- Fuel needed by `parseMembers` for a list of members. -/
def jsizeO : JObj → ℕ
  | .nil => 0
  | .cons k v t => k.length + 2 + jsize v + jsizeO t
end

/-- A position where a serialized value may stop inside a document: the
end or a separator. -/
def sepOk (r : List Char) : Prop :=
  r = [] ∨ ∃ c t, r = c :: t ∧ (c = ',' ∨ c = ']' ∨ c = rbrace)

/-- A response carrying only an untrimmed `howYouFelt`. -/
def limitedText : List Char := "\x7b\"howYouFelt\": \" hi \"\x7d".toList

/-- The record `parseOpenAIInsights` produces for `limitedText`. -/
def limitedResponse : InsightResponse :=
  { howYouFelt := "hi".toList, weeklySummary := .str [], moodDrivers := .nil,
    patterns := .nil, suggestions := .nil, confidence := decHalf }

/-- A response whose confidence is the out-of-range number 2. -/
def conf2Text : List Char := "\x7b\"confidence\": 2\x7d".toList

/-- The record `parseOpenAIInsights` produces for `conf2Text`. -/
def conf2Response : InsightResponse :=
  { howYouFelt := [], weeklySummary := .str [], moodDrivers := .nil,
    patterns := .nil, suggestions := .nil, confidence := ⟨false, 2, []⟩ }

/-- A fenced plain-prose response with no JSON-like substring. -/
def proseText : List Char := "```json\nplain prose\n```".toList

/-- A JSON array of strings. -/
def strJList : List (List Char) → JList
  | [] => .nil
  | s :: t => .cons (.str s) (strJList t)

/-- A fully-populated `InsightResult`-shaped JSON object: all six
fields present with their schema types. -/
def mkInsightObj (h w : List Char) (dr pt sg : List (List Char)) (conf : Dec) : Json :=
  .obj (.cons keyHowYouFelt (.str h) (.cons keyWeeklySummary (.str w)
    (.cons keyMoodDrivers (.arr (strJList dr)) (.cons keyPatterns (.arr (strJList pt))
      (.cons keySuggestions (.arr (strJList sg)) (.cons keyConfidence (.num conf) .nil))))))

/-- The valid insight object whose `howYouFelt` carries surrounding
whitespace. -/
def untrimmedObj : Json :=
  mkInsightObj " hi ".toList "ok".toList [] [] [] decHalf

/-- Rounding `jsRoundDiv` agrees with rounding the rational quotient. -/
theorem jsRoundDiv_eq_jsRound (a : ℤ) (b : ℕ) (hb : 0 < b) :
    jsRoundDiv a b = jsRound ((a : ℚ) / (b : ℚ)) := by
  have hb' : ((b : ℚ)) ≠ 0 := by exact_mod_cast hb.ne'
  have key : (a : ℚ) / (b : ℚ) + 1/2 = ((2 * a + b : ℤ) : ℚ) / ((2 * b : ℕ) : ℚ) := by
    push_cast
    field_simp
    ring
  have h2 : ⌊((2 * a + b : ℤ) : ℚ) / ((2 * b : ℕ) : ℚ)⌋ = (2 * a + b) / ((2 * b : ℕ) : ℤ) :=
    Rat.floor_intCast_div_natCast _ _
  unfold jsRound jsRoundDiv
  rw [key, h2]
  norm_num

/-- Evaluate `jsRound` through an explicit fraction for `q + 1/2`. -/
theorem jsRound_concrete (q : ℚ) (n : ℤ) (d : ℕ) (h : q + 1/2 = (n : ℚ) / (d : ℚ)) :
    jsRound q = n / (d : ℤ) := by
  unfold jsRound
  rw [h, Rat.floor_intCast_div_natCast]

/-- Bumping a key raises exactly that key's count by one. -/
theorem lookupCount_bump [DecidableEq α] (l : List (α × ℕ)) (k k' : α) :
    lookupCount (bump l k) k' = lookupCount l k' + (if k' = k then 1 else 0) := by
  induction l with
  | nil =>
    by_cases h : k' = k
    · subst h; simp [bump, lookupCount]
    · simp [bump, lookupCount, h, Ne.symm h]
  | cons p rest ih =>
    obtain ⟨a, n⟩ := p
    by_cases hak : a = k
    · subst hak
      by_cases hk' : a = k'
      · subst hk'; simp [bump, lookupCount]
      · simp [bump, lookupCount, hk', Ne.symm hk']
    · by_cases hk' : a = k'
      · subst hk'
        simp [bump, lookupCount, hak, Ne.symm hak]
      · simp [bump, lookupCount, hak, hk', ih]

/-- Bumping a key raises the total of all counts by one. -/
theorem sumCounts_bump [DecidableEq α] (l : List (α × ℕ)) (k : α) :
    ((bump l k).map (·.2)).sum = (l.map (·.2)).sum + 1 := by
  induction l with
  | nil => simp [bump]
  | cons p rest ih =>
    obtain ⟨a, n⟩ := p
    by_cases hak : a = k
    · simp [bump, hak]
      omega
    · simp [bump, hak, ih]
      omega

/-- Head of the insertion is the inserted element or the old head,
whichever has the (weakly, favouring the inserted) larger count. -/
theorem insertIntoDesc_head (x : α × ℕ) (l : List (α × ℕ)) :
    (insertIntoDesc x l).head? =
      match l.head? with
      | none => some x
      | some y => if x.2 ≥ y.2 then some x else some y := by
  cases l with
  | nil => simp [insertIntoDesc]
  | cons y ys =>
    simp only [insertIntoDesc, List.head?]
    by_cases h : x.2 ≥ y.2 <;> simp [h]

/-- The head of the stable descending sort is the first element with the
maximal count. -/
theorem sortDesc_head (l : List (α × ℕ)) : (sortDesc l).head? = firstMax l := by
  induction l with
  | nil => rfl
  | cons x xs ih =>
    simp only [sortDesc, firstMax, insertIntoDesc_head, ih]
    cases hfm : firstMax xs with
    | none => rfl
    | some y =>
      by_cases h : x.2 ≥ y.2
      · have : ¬ y.2 > x.2 := by omega
        simp [h, this]
      · have : y.2 > x.2 := by omega
        simp [h, this]

/-- Unfolding `firstMax` over an empty tail. -/
theorem firstMax_cons_none {xs : List (α × ℕ)} (x : α × ℕ) (h : firstMax xs = none) :
    firstMax (x :: xs) = some x := by
  rw [firstMax, h]

/-- Unfolding `firstMax` over a tail with a first maximum. -/
theorem firstMax_cons_some {xs : List (α × ℕ)} (x w : α × ℕ) (h : firstMax xs = some w) :
    firstMax (x :: xs) = if w.2 > x.2 then some w else some x := by
  rw [firstMax, h]

/-- A nonempty list always has a first maximum. -/
theorem firstMax_ne_none (x : α × ℕ) (xs : List (α × ℕ)) : firstMax (x :: xs) ≠ none := by
  cases hfm : firstMax xs with
  | none => rw [firstMax_cons_none x hfm]; simp
  | some w =>
    rw [firstMax_cons_some x w hfm]
    by_cases h : w.2 > x.2 <;> simp [h]

/-- The function `firstMax` finds an element that strictly dominates everything
before it and weakly dominates everything after it. -/
theorem firstMax_decomp (l : List (α × ℕ)) (y : α × ℕ) (h : firstMax l = some y) :
    ∃ l₁ l₂, l = l₁ ++ y :: l₂ ∧ (∀ z ∈ l₁, z.2 < y.2) ∧ (∀ z ∈ l₂, z.2 ≤ y.2) := by
  induction l generalizing y with
  | nil => simp [firstMax] at h
  | cons x xs ih =>
    cases hfm : firstMax xs with
    | none =>
      rw [firstMax_cons_none x hfm] at h
      obtain rfl : x = y := Option.some.inj h
      cases xs with
      | nil => exact ⟨[], [], rfl, by simp, by simp⟩
      | cons a as => exact absurd hfm (firstMax_ne_none a as)
    | some w =>
      rw [firstMax_cons_some x w hfm] at h
      by_cases hw : w.2 > x.2
      · rw [if_pos hw] at h
        obtain rfl : w = y := Option.some.inj h
        obtain ⟨l₁, l₂, heq, hlt, hle⟩ := ih w hfm
        refine ⟨x :: l₁, l₂, by simp [heq], ?_, hle⟩
        intro z hz
        rcases List.mem_cons.mp hz with rfl | hz
        · exact hw
        · exact hlt z hz
      · rw [if_neg hw] at h
        obtain rfl : x = y := Option.some.inj h
        obtain ⟨l₁, l₂, heq, hlt, hle⟩ := ih w hfm
        refine ⟨[], xs, rfl, by simp, ?_⟩
        intro z hz
        have hwx : w.2 ≤ x.2 := by omega
        rw [heq] at hz
        rcases List.mem_append.mp hz with hz | hz
        · exact le_of_lt (lt_of_lt_of_le (hlt z hz) hwx)
        · rcases List.mem_cons.mp hz with rfl | hz
          · exact hwx
          · exact le_trans (hle z hz) hwx

/-- The insertion preserves descending adjacency. -/
theorem insertIntoDesc_chain (x : α × ℕ) (l : List (α × ℕ))
    (h : List.Chain' (fun a b : α × ℕ => b.2 ≤ a.2) l) :
    List.Chain' (fun a b : α × ℕ => b.2 ≤ a.2) (insertIntoDesc x l) := by
  induction l with
  | nil => simp [insertIntoDesc]
  | cons y ys ih =>
    simp only [insertIntoDesc]
    by_cases hxy : x.2 ≥ y.2
    · simp only [if_pos hxy]
      exact List.Chain'.cons hxy h
    · simp only [if_neg hxy]
      have hys := (List.chain'_cons'.mp h).2
      have hchain := ih hys
      rw [List.chain'_cons']
      refine ⟨?_, hchain⟩
      intro z hz
      rw [insertIntoDesc_head] at hz
      cases hys' : ys.head? with
      | none =>
        rw [hys'] at hz
        simp only [Option.mem_def, Option.some.injEq] at hz
        subst hz
        omega
      | some w =>
        rw [hys'] at hz
        by_cases hxw : x.2 ≥ w.2
        · simp only [if_pos hxw, Option.mem_def, Option.some.injEq] at hz
          subst hz
          omega
        · simp only [if_neg hxw, Option.mem_def, Option.some.injEq] at hz
          subst hz
          exact (List.chain'_cons'.mp h).1 w hys'

/-- The stable sort is descending in counts. -/
theorem sortDesc_chain (l : List (α × ℕ)) :
    List.Chain' (fun a b : α × ℕ => b.2 ≤ a.2) (sortDesc l) := by
  induction l with
  | nil => simp [sortDesc]
  | cons x xs ih => exact insertIntoDesc_chain x (sortDesc xs) ih

/-- Inserting an element does not reorder the elements of any fixed
count class; the inserted element lands in front of its own class. -/
theorem insertIntoDesc_filter (x : α × ℕ) (l : List (α × ℕ)) (c : ℕ)
    (h : List.Chain' (fun a b : α × ℕ => b.2 ≤ a.2) l) :
    (insertIntoDesc x l).filter (fun p => p.2 == c) =
      if x.2 = c then x :: l.filter (fun p => p.2 == c)
      else l.filter (fun p => p.2 == c) := by
  induction l with
  | nil =>
    simp only [insertIntoDesc]
    by_cases hx : x.2 = c <;> simp [hx, List.filter_cons]
  | cons y ys ih =>
    simp only [insertIntoDesc]
    by_cases hxy : x.2 ≥ y.2
    · simp only [if_pos hxy]
      by_cases hx : x.2 = c <;> simp [hx, List.filter_cons]
    · simp only [if_neg hxy]
      have hyc : ¬ y.2 = c → ((y :: ys).filter (fun p => p.2 == c) = ys.filter (fun p => p.2 == c)) := by
        intro hy; simp [List.filter_cons, hy]
      have hys := (List.chain'_cons'.mp h).2
      rw [List.filter_cons, ih hys]
      by_cases hx : x.2 = c
      · have hy : ¬ y.2 = c := by omega
        simp only [if_pos hx]
        simp [List.filter_cons, hy, show (y.2 == c) = false by simp [hy]]
      · simp [if_neg hx, List.filter_cons]

/-- Stability of the sort: each count class keeps its input order. -/
theorem sortDesc_filter (l : List (α × ℕ)) (c : ℕ) :
    (sortDesc l).filter (fun p => p.2 == c) = l.filter (fun p => p.2 == c) := by
  induction l with
  | nil => rfl
  | cons x xs ih =>
    simp only [sortDesc]
    rw [insertIntoDesc_filter x (sortDesc xs) c (sortDesc_chain xs), List.filter_cons]
    by_cases hx : x.2 = c
    · simp [hx, ih]
    · simp [hx, ih, show (x.2 == c) = false by simp [hx]]

/-- Generalised accumulator form of the mood-count characterisation. -/
theorem getMoodCounts_go (es : List JournalEntry) (acc : List (String × ℕ)) (m : String) :
    lookupCount
        (es.foldl (fun acc e => match e.mood with | some md => bump acc md | none => acc) acc) m =
      lookupCount acc m + (es.filter (fun e => e.mood == some m)).length := by
  induction es generalizing acc with
  | nil => simp
  | cons e rest ih =>
    cases hm : e.mood with
    | none => simp [List.foldl_cons, hm, ih, List.filter_cons]
    | some md =>
      simp only [List.foldl_cons, hm, ih, lookupCount_bump, List.filter_cons]
      by_cases hmd : md = m
      · subst hmd; simp; omega
      · simp [hmd, Ne.symm hmd, show (some md == some m) = false by simp [hmd]]

/-- The mood counts record counts, for each mood, the entries of the
whole collection carrying that mood. -/
theorem getMoodCounts_lookup (entries : List JournalEntry) (m : String) :
    lookupCount (getMoodCounts entries) m =
      (entries.filter (fun e => e.mood == some m)).length := by
  have h := getMoodCounts_go entries [] m
  simpa [getMoodCounts, lookupCount] using h

/-- Generalised accumulator form of the total count. -/
theorem totalWithMood_go (es : List JournalEntry) (acc : List (String × ℕ)) :
    (((es.foldl (fun acc e => match e.mood with | some md => bump acc md | none => acc) acc)).map
        (·.2)).sum =
      ((acc.map (·.2)).sum) + (es.filter (fun e => e.mood.isSome)).length := by
  induction es generalizing acc with
  | nil => simp
  | cons e rest ih =>
    cases hm : e.mood with
    | none => simp [List.foldl_cons, hm, ih, List.filter_cons]
    | some md =>
      simp [List.foldl_cons, hm, ih, sumCounts_bump, List.filter_cons]
      omega

/-- The total `totalWithMood` counts the entries with a mood tag. -/
theorem totalWithMood_eq (entries : List JournalEntry) :
    totalWithMood entries = (entries.filter (fun e => e.mood.isSome)).length := by
  have h := totalWithMood_go entries []
  simpa [totalWithMood, getMoodCounts] using h

/-- Effect of one keyword test on a theme's count. -/
theorem lookupCount_themeStepKw (cl : List Char) (th th' : String)
    (acc : List (String × ℕ)) (kw : String) :
    lookupCount (themeStepKw cl th acc kw) th' =
      lookupCount acc th' +
        (if th' = th ∧ includesL cl kw.data then 1 else 0) := by
  unfold themeStepKw
  by_cases hkw : includesL cl kw.data
  · simp [hkw, lookupCount_bump]
  · simp [hkw]

/-- Effect of one theme's keyword list on a theme's count. -/
theorem lookupCount_kwFold (cl : List Char) (th th' : String)
    (kws : List String) (acc : List (String × ℕ)) :
    lookupCount (kws.foldl (themeStepKw cl th) acc) th' =
      lookupCount acc th' +
        (if th' = th then (kws.filter (fun kw => includesL cl kw.data)).length else 0) := by
  induction kws generalizing acc with
  | nil => simp
  | cons kw rest ih =>
    simp only [List.foldl_cons, ih, lookupCount_themeStepKw, List.filter_cons]
    by_cases hth : th' = th
    · by_cases hkw : includesL cl kw.data
      · simp [hth, hkw]
        omega
      · simp [hth, hkw]
    · simp [hth]

/-- Effect of a full dictionary pass on a theme's count. -/
theorem lookupCount_dictFold (cl : List Char) (th : String)
    (dict : List (String × List String)) (acc : List (String × ℕ)) :
    lookupCount (dict.foldl (fun acc p => p.2.foldl (themeStepKw cl p.1) acc) acc) th =
      lookupCount acc th + dictMatches cl th dict := by
  induction dict generalizing acc with
  | nil => simp [dictMatches]
  | cons p rest ih =>
    simp only [List.foldl_cons, ih, lookupCount_kwFold, dictMatches, List.filter_cons]
    by_cases hth : th = p.1
    · simp [hth, dictMatches]
      omega
    · simp [hth, Ne.symm hth, dictMatches, show (p.1 == th) = false by simp [Ne.symm hth]]

/-- With distinct keys, the dictionary slice for a key is what `lookup`
finds for it. -/
theorem dictMatches_eq_lookup (cl : List Char) (th : String)
    (dict : List (String × List String)) (hnd : (dict.map (·.1)).Nodup) :
    dictMatches cl th dict =
      (((dict.lookup th).getD []).filter (fun kw => includesL cl kw.data)).length := by
  induction dict with
  | nil => simp [dictMatches]
  | cons p rest ih =>
    have hnd' : (rest.map (·.1)).Nodup := (List.nodup_cons.mp hnd).2
    have hp : p.1 ∉ rest.map (·.1) := (List.nodup_cons.mp hnd).1
    by_cases hth : p.1 = th
    · subst hth
      have hrest : rest.filter (fun q => q.1 == p.1) = [] := by
        rw [List.filter_eq_nil_iff]
        intro q hq
        simp only [beq_iff_eq]
        intro hq1
        exact hp (hq1 ▸ List.mem_map_of_mem (·.1) hq)
      simp [dictMatches, List.filter_cons, hrest, List.lookup]
    · have h1 : (p.1 == th) = false := by simp [hth]
      have h2 : (th == p.1) = false := by simp [Ne.symm hth]
      simp only [dictMatches, List.filter_cons, h1, List.lookup, h2]
      exact ih hnd'

/-- The theme-keyword dictionary has pairwise distinct theme names. -/
theorem themeKeywords_nodup : (themeKeywords.map (·.1)).Nodup := by decide

/-- One entry's pass over the dictionary adds its keyword hits for each
theme. -/
theorem lookupCount_themeStepEntry (acc : List (String × ℕ)) (e : JournalEntry) (th : String) :
    lookupCount (themeStepEntry acc e) th = lookupCount acc th + matchCount e th := by
  unfold themeStepEntry matchCount
  rw [lookupCount_dictFold, dictMatches_eq_lookup _ _ _ themeKeywords_nodup]

/-- Generalised accumulator form of the theme-count characterisation. -/
theorem collectThemes_go (es : List JournalEntry) (acc : List (String × ℕ)) (th : String) :
    lookupCount (es.foldl themeStepEntry acc) th =
      lookupCount acc th + (es.map (fun e => matchCount e th)).sum := by
  induction es generalizing acc with
  | nil => simp
  | cons e rest ih =>
    simp [List.foldl_cons, ih, lookupCount_themeStepEntry]
    omega

/-- The accumulated theme counts are, for each theme, the total number
of keyword hits over all entries. -/
theorem collectThemes_lookup (entries : List JournalEntry) (th : String) :
    lookupCount (collectThemes entries) th =
      (entries.map (fun e => matchCount e th)).sum := by
  have h := collectThemes_go entries [] th
  simpa [collectThemes, lookupCount] using h

/-- C1 counterexample: a single entry thirty days old lies outside the
current 7-day window (the window is empty), yet it alone determines the
mood counts, the dominant mood and the percentages, refuting the claim
that entries outside the window contribute nothing. -/
theorem moodStats_use_out_of_window_entry :
    weekEntries [oldEntry] 0 = [] ∧
    getMoodCounts [oldEntry] = [("joy", 1)] ∧
    dominantMood [oldEntry] = some "joy" ∧
    moodPercentage [oldEntry] "joy" = 100 := by decide

/-- C1 (amended): the per-mood counts, the dominant mood and the
mood-distribution percentages are computed from the whole entry
collection irrespective of any reference instant: each mood's count is
the number of all entries carrying that mood, the dominant mood is the
first-encountered mood of maximal count, and each percentage is the
rounded share of the mood among all entries with a mood. -/
theorem moodStats_characterisation (entries : List JournalEntry) (m : String) :
    lookupCount (getMoodCounts entries) m =
        (entries.filter (fun e => e.mood == some m)).length ∧
    totalWithMood entries = (entries.filter (fun e => e.mood.isSome)).length ∧
    dominantMood entries = (firstMax (getMoodCounts entries)).map (·.1) ∧
    moodPercentage entries m =
      (if 0 < (entries.filter (fun e => e.mood.isSome)).length then
        jsRound (((entries.filter (fun e => e.mood == some m)).length : ℚ) /
          ((entries.filter (fun e => e.mood.isSome)).length : ℚ) * 100)
      else 0) := by
  refine ⟨getMoodCounts_lookup entries m, totalWithMood_eq entries, ?_, ?_⟩
  · unfold dominantMood
    rw [sortDesc_head]
  · unfold moodPercentage
    rw [totalWithMood_eq, getMoodCounts_lookup]
    by_cases h : 0 < (entries.filter (fun e => e.mood.isSome)).length
    · rw [if_pos h, if_pos h, jsRoundDiv_eq_jsRound _ _ h]
      congr 1
      push_cast
      ring
    · rw [if_neg h, if_neg h]

/-- C2 counterexample: an entry dated one day after the reference
instant belongs to `weekEntries`, refuting the claim that no entry
dated at or after `now` appears in the current set. -/
theorem weekEntries_admit_future_entry :
    weekEntries [futureEntry] 0 = [futureEntry] ∧ 0 ≤ futureEntry.date.time := by decide

/-- C2 (amended): the current set contains exactly the entries dated at
or after `now − 7d` (with no upper bound, so entries dated at or after
`now` are also included), the previous set contains exactly the entries
in `[now − 14d, now − 7d)`, and the two sets are disjoint. -/
theorem windows_characterisation (entries : List JournalEntry) (now : ℤ) (e : JournalEntry) :
    (e ∈ weekEntries entries now ↔ e ∈ entries ∧ now - 7 * dayMs ≤ e.date.time) ∧
    (e ∈ prevWeekEntries entries now ↔
      e ∈ entries ∧ now - 14 * dayMs ≤ e.date.time ∧ e.date.time < now - 7 * dayMs) ∧
    (e ∉ weekEntries entries now ∨ e ∉ prevWeekEntries entries now) := by
  refine ⟨by simp [weekEntries, List.mem_filter],
    by simp [prevWeekEntries, List.mem_filter], ?_⟩
  rw [or_iff_not_imp_left, not_not]
  intro hw hp
  have h1 : now - 7 * dayMs ≤ e.date.time := by
    have := (List.mem_filter.mp hw).2
    simpa using this
  have h2 : e.date.time < now - 7 * dayMs := by
    have := (List.mem_filter.mp hp).2
    simp at this
    exact this.2
  omega

/-- C3 counterexample: with previous count 8 and current count 7 the
claimed formula gives round(|7−8|/8·100) = round(12.5) = 13, but the
code rounds the signed ratio first and takes the absolute value of the
rounded result, yielding 12. -/
theorem moodTrend_rounds_before_abs :
    lastWeekCount trendEntries 0 "joy" = 8 ∧
    thisWeekCount trendEntries 0 "joy" = 7 ∧
    getMoodTrend trendEntries 0 "joy" = { change := 12, direction := .down } ∧
    jsRound (|(7 : ℚ) - 8| / 8 * 100) = 13 := by
  refine ⟨by decide, by decide, by decide, ?_⟩
  have h := jsRound_concrete (|(7 : ℚ) - 8| / 8 * 100) 13 1 (by norm_num)
  simpa using h

/-- C3 (amended): with zero previous count the trend is neutral with
percentChange 0 regardless of the current count; otherwise the signed
ratio is rounded first, `pc = round((cur−prev)/prev·100)` with rounding
half toward +∞, the reported percentChange is `|pc|` (a non-negative
integer), and the direction is read off the rounded value: up if
`pc > 0`, down if `pc < 0`, neutral otherwise. -/
theorem moodTrend_characterisation (entries : List JournalEntry) (now : ℤ) (mood : String) :
    (lastWeekCount entries now mood = 0 →
      getMoodTrend entries now mood = { change := 0, direction := .neutral }) ∧
    (0 < lastWeekCount entries now mood →
      getMoodTrend entries now mood =
        { change :=
            |jsRound (((thisWeekCount entries now mood : ℚ) -
                (lastWeekCount entries now mood : ℚ)) /
              (lastWeekCount entries now mood : ℚ) * 100)|,
          direction :=
            if 0 < jsRound (((thisWeekCount entries now mood : ℚ) -
                  (lastWeekCount entries now mood : ℚ)) /
                (lastWeekCount entries now mood : ℚ) * 100) then .up
            else if jsRound (((thisWeekCount entries now mood : ℚ) -
                  (lastWeekCount entries now mood : ℚ)) /
                (lastWeekCount entries now mood : ℚ) * 100) < 0 then .down
            else .neutral } ∧
      0 ≤ |jsRound (((thisWeekCount entries now mood : ℚ) -
            (lastWeekCount entries now mood : ℚ)) /
          (lastWeekCount entries now mood : ℚ) * 100)|) := by
  constructor
  · intro h
    simp [getMoodTrend, h]
  · intro h
    have hne : ¬ lastWeekCount entries now mood = 0 := by omega
    have hb : jsRoundDiv (((thisWeekCount entries now mood : ℤ) -
          (lastWeekCount entries now mood : ℤ)) * 100) (lastWeekCount entries now mood) =
        jsRound (((thisWeekCount entries now mood : ℚ) -
            (lastWeekCount entries now mood : ℚ)) /
          (lastWeekCount entries now mood : ℚ) * 100) := by
      rw [jsRoundDiv_eq_jsRound _ _ h]
      congr 1
      push_cast
      have hq : ((lastWeekCount entries now mood : ℚ)) ≠ 0 := by
        exact_mod_cast hne
      field_simp
    refine ⟨?_, abs_nonneg _⟩
    simp only [getMoodTrend, if_neg hne, hb]

/-- C3 witness: the amended characterisation applied to a collection
with previous count 2 and current count 4. -/
theorem moodTrend_characterisation_witness :
    getMoodTrend trendEntriesUp 0 "joy" =
      { change :=
          |jsRound (((thisWeekCount trendEntriesUp 0 "joy" : ℚ) -
              (lastWeekCount trendEntriesUp 0 "joy" : ℚ)) /
            (lastWeekCount trendEntriesUp 0 "joy" : ℚ) * 100)|,
        direction :=
          if 0 < jsRound (((thisWeekCount trendEntriesUp 0 "joy" : ℚ) -
                (lastWeekCount trendEntriesUp 0 "joy" : ℚ)) /
              (lastWeekCount trendEntriesUp 0 "joy" : ℚ) * 100) then .up
          else if jsRound (((thisWeekCount trendEntriesUp 0 "joy" : ℚ) -
                (lastWeekCount trendEntriesUp 0 "joy" : ℚ)) /
              (lastWeekCount trendEntriesUp 0 "joy" : ℚ) * 100) < 0 then .down
          else .neutral } ∧
    0 ≤ |jsRound (((thisWeekCount trendEntriesUp 0 "joy" : ℚ) -
          (lastWeekCount trendEntriesUp 0 "joy" : ℚ)) /
        (lastWeekCount trendEntriesUp 0 "joy" : ℚ) * 100)| :=
  (moodTrend_characterisation trendEntriesUp 0 "joy").2 (by decide)

/-- C4: theme counts increment once per keyword match, not once per
entry: each theme's accumulated count is the sum over the entries of the
number of that theme's keywords occurring in the entry's lower-cased
text, and the single entry "meditation calm" contributes exactly 2 to
the Mindfulness count. -/
theorem themeCounts_per_keyword :
    (∀ (entries : List JournalEntry) (th : String),
      lookupCount (collectThemes entries) th =
        (entries.map (fun e => matchCount e th)).sum) ∧
    lookupCount (collectThemes [meditationEntry]) "Mindfulness" = 2 ∧
    matchCount meditationEntry "Mindfulness" = 2 := by
  refine ⟨collectThemes_lookup, by decide, by decide⟩

/-- C9 counterexample: one entry matching only Family followed by one
matching only Work gives both themes count 1; the output lists Family
before Work although the dictionary declares Work first, refuting the
claim that ties are broken by dictionary declaration order. -/
theorem themes_tie_order_not_declaration :
    extractThemes [familyEntry, officeEntry] =
      [{ name := "Family", count := 1 }, { name := "Work", count := 1 }] ∧
    themeKeywords.map (·.1) =
      ["Work", "Family", "Friends", "Health", "Mindfulness", "Nature",
       "Productivity", "Growth", "Stress", "Books"] := by decide

/-- C9 (amended): the theme output is the first five rows of the stable
count-descending sort of the accumulated counts, so it is sorted by
count descending, has at most five rows, and themes of any equal count
keep their first-encounter (insertion) order from the scan rather than
dictionary declaration order. -/
theorem extractThemes_sorted_truncated_stable (entries : List JournalEntry) (c : ℕ) :
    (extractThemes entries).length ≤ 5 ∧
    List.Chain' (fun a b : ThemeOut => b.count ≤ a.count) (extractThemes entries) ∧
    extractThemes entries =
      ((sortDesc (collectThemes entries)).take 5).map
        (fun p => { name := p.1, count := p.2 }) ∧
    (sortDesc (collectThemes entries)).filter (fun p => p.2 == c) =
      (collectThemes entries).filter (fun p => p.2 == c) := by
  refine ⟨?_, ?_, rfl, sortDesc_filter _ c⟩
  · simp only [extractThemes, List.length_map, List.length_take]
    omega
  · unfold extractThemes
    rw [List.chain'_map]
    exact ((sortDesc_chain (collectThemes entries)).take 5)

/-- C10: on the empty entry collection the writing-habit statistics are
produced, not absent: the most frequent day falls back to the literal
"Tuesday" and the mean writing hour to the literal 20. -/
theorem emptyStats_defaults : mostCommonDay [] = "Tuesday" ∧ avgHour [] = 20 := by decide

/-- A non-array optional value defaults to the empty sequence. -/
theorem arrOrEmpty_of_not_arr (x : Option Json) (h : isArrOpt x = false) :
    arrOrEmpty x = .nil := by
  cases x with
  | none => rfl
  | some v =>
    cases v with
    | arr xs => simp [isArrOpt] at h
    | null => rfl
    | bool b => rfl
    | num d => rfl
    | str s => rfl
    | obj kvs => rfl

/-- A non-number optional value defaults to 0.5. -/
theorem numOrHalf_of_not_num (x : Option Json) (h : isNumOpt x = false) :
    numOrHalf x = decHalf := by
  cases x with
  | none => rfl
  | some v =>
    cases v with
    | num d => simp [isNumOpt] at h
    | null => rfl
    | bool b => rfl
    | str s => rfl
    | arr xs => rfl
    | obj kvs => rfl

/-- Digit characters decode to their values and test as digits. -/
theorem digitChar_spec : ∀ d : ℕ, d < 10 →
    isDigitC (digitChar d) = true ∧ digitVal (digitChar d) = d := by decide

/-- Hexadecimal digit characters decode to their values. -/
theorem hexDigit_spec : ∀ d : ℕ, d < 16 → hexVal (hexDigit d) = some d := by decide

/-- Every character of a numeral is a digit. -/
theorem natCharsAux_digits (fuel : ℕ) : ∀ n, ∀ c ∈ natCharsAux fuel n, isDigitC c = true := by
  induction fuel with
  | zero => intro n c hc; simp [natCharsAux] at hc
  | succ fuel ih =>
    intro n c hc
    by_cases hn : n = 0
    · simp [natCharsAux, hn] at hc
    · rw [natCharsAux, if_neg hn] at hc
      rcases List.mem_append.mp hc with hc | hc
      · exact ih _ c hc
      · rcases List.mem_singleton.mp hc with rfl
        exact (digitChar_spec _ (Nat.mod_lt _ (by norm_num))).1

/-- Digit-run value of a numeral with one more digit appended. -/
theorem digitsVal_append (ds : List Char) (c : Char) :
    digitsVal (ds ++ [c]) = 10 * digitsVal ds + digitVal c := by
  simp [digitsVal, List.foldl_append]

/-- A numeral with enough fuel evaluates back to its number. -/
theorem natCharsAux_val : ∀ fuel n, n ≤ fuel → digitsVal (natCharsAux fuel n) = n := by
  intro fuel
  induction fuel with
  | zero => intro n h; interval_cases n; simp [natCharsAux, digitsVal]
  | succ fuel ih =>
    intro n h
    by_cases hn : n = 0
    · simp [natCharsAux, hn, digitsVal]
    · rw [natCharsAux, if_neg hn, digitsVal_append,
        ih (n / 10) (by omega), (digitChar_spec (n % 10) (Nat.mod_lt _ (by norm_num))).2]
      omega

/-- Every character of `natChars` is a digit. -/
theorem natChars_digits (n : ℕ) : ∀ c ∈ natChars n, isDigitC c = true := by
  intro c hc
  by_cases hn : n = 0
  · simp [natChars, hn] at hc
    subst hc
    decide
  · rw [natChars, if_neg hn] at hc
    exact natCharsAux_digits _ _ c hc

/-- A numeral `natChars` is never empty. -/
theorem natChars_ne_nil (n : ℕ) : natChars n ≠ [] := by
  by_cases hn : n = 0
  · simp [natChars, hn]
  · rw [natChars, if_neg hn]
    cases hfm : natCharsAux (n + 1) n with
    | nil =>
      exfalso
      have := natCharsAux_val (n + 1) n (by omega)
      rw [hfm] at this
      simp [digitsVal] at this
      omega
    | cons a t => simp

/-- A numeral `natChars` evaluates back to its number. -/
theorem natChars_val (n : ℕ) : digitsVal (natChars n) = n := by
  by_cases hn : n = 0
  · simp [natChars, hn, digitsVal, digitVal]
  · rw [natChars, if_neg hn]
    exact natCharsAux_val _ _ (by omega)

/-- The number parser reads back a serialized numeral exactly. -/
theorem parseNum_round (n : ℕ) (fd : List ℕ) (hfd : fd.all (· < 10) = true)
    (neg : Bool) (rest : List Char) (hrest : numStop rest) :
    parseNum (natChars n ++ (if fd = [] then [] else '.' :: fd.map digitChar) ++ rest) neg =
      some (⟨neg, n, fd⟩, rest) := by
  have hLd : ∀ c ∈ natChars n, isDigitC c = true := natChars_digits n
  have htake : ∀ r : List Char, (natChars n ++ r).takeWhile isDigitC =
      natChars n ++ r.takeWhile isDigitC := fun r => List.takeWhile_append_of_pos hLd
  have hdrop : ∀ r : List Char, (natChars n ++ r).dropWhile isDigitC =
      r.dropWhile isDigitC := fun r => List.dropWhile_append_of_pos hLd
  have hrtake : rest.takeWhile isDigitC = [] := by
    rcases hrest with rfl | ⟨c, t, rfl, hc, _⟩
    · rfl
    · simp [List.takeWhile_cons, hc]
  have hrdrop : rest.dropWhile isDigitC = rest := by
    rcases hrest with rfl | ⟨c, t, rfl, hc, _⟩
    · rfl
    · simp [List.dropWhile_cons, hc]
  have hnotempty : (natChars n).isEmpty = false := by
    cases hnc : natChars n with
    | nil => exact absurd hnc (natChars_ne_nil n)
    | cons a t => rfl
  by_cases hfde : fd = []
  · subst hfde
    rw [show (if ([] : List ℕ) = [] then ([] : List Char)
        else '.' :: List.map digitChar []) = [] from rfl, List.append_nil]
    unfold parseNum
    simp only [htake, hdrop, hrtake, hrdrop, List.append_nil, hnotempty,
      Bool.false_eq_true, if_false]
    rcases hrest with rfl | ⟨c, t, rfl, hc, hdot⟩
    · simp [natChars_val]
    · split
      · next r2 heq =>
        exact absurd (List.cons.inj heq).1 hdot
      · simp [natChars_val]
  · have hmapd : ∀ c ∈ fd.map digitChar, isDigitC c = true := by
      intro c hc
      obtain ⟨d, hd, rfl⟩ := List.mem_map.mp hc
      exact (digitChar_spec d (by simpa using List.all_eq_true.mp hfd d hd)).1
    have hmapne : (fd.map digitChar).isEmpty = false := by
      cases fd with
      | nil => exact absurd rfl hfde
      | cons a t => rfl
    have e1 : List.takeWhile isDigitC ('.' :: (List.map digitChar fd ++ rest)) = [] :=
      List.takeWhile_cons_of_neg (by decide)
    have e2 : List.dropWhile isDigitC ('.' :: (List.map digitChar fd ++ rest)) =
        '.' :: (List.map digitChar fd ++ rest) :=
      List.dropWhile_cons_of_neg (by decide)
    have h3 : List.takeWhile isDigitC (fd.map digitChar ++ rest) = fd.map digitChar :=
      (List.takeWhile_append_of_pos hmapd).trans (by rw [hrtake, List.append_nil])
    have h4 : List.dropWhile isDigitC (fd.map digitChar ++ rest) = rest :=
      (List.dropWhile_append_of_pos hmapd).trans hrdrop
    have h6 : (fd.map digitChar).map digitVal = fd := by
      rw [List.map_map]
      calc fd.map (digitVal ∘ digitChar)
          = fd.map id := List.map_congr_left
            (fun d hd => (digitChar_spec d (by simpa using List.all_eq_true.mp hfd d hd)).2)
        _ = fd := List.map_id fd
    rw [if_neg hfde]
    unfold parseNum
    rw [List.append_assoc]
    simp only [List.cons_append, htake, hdrop, e1, e2, List.append_nil, hnotempty,
      Bool.false_eq_true, if_false, h3, h4, hmapne, natChars_val, h6]

/-- The string-body parser reads back an escaped string exactly, given
fuel beyond the content length. -/
theorem parseStrBody_round (s : List Char) : ∀ fuel : ℕ, s.length < fuel → ∀ rest : List Char,
    parseStrBody fuel (escString s ++ '"' :: rest) = some (s, rest) := by
  induction s with
  | nil =>
    intro fuel hf rest
    cases fuel with
    | zero => omega
    | succ f => simp +decide [escString, parseStrBody]
  | cons c cs ih =>
    intro fuel hf rest
    cases fuel with
    | zero => omega
    | succ f =>
    have ihf := ih f (by simp at hf; omega)
    have hesc : escString (c :: cs) = escChar c ++ escString cs := by
      simp [escString]
    rw [hesc, List.append_assoc]
    by_cases h1 : c = '"'
    · subst h1
      simp +decide [parseStrBody, escChar, escDecode, ihf]
    by_cases h2 : c = bslash
    · subst h2
      simp +decide [parseStrBody, escChar, escDecode, ihf]
    by_cases h3 : c = '\n'
    · subst h3
      simp +decide [parseStrBody, escChar, escDecode, ihf]
    by_cases h4 : c = '\t'
    · subst h4
      simp +decide [parseStrBody, escChar, escDecode, ihf]
    by_cases h5 : c = '\r'
    · subst h5
      simp +decide [parseStrBody, escChar, escDecode, ihf]
    by_cases h6 : c = Char.ofNat 8
    · subst h6
      simp +decide [parseStrBody, escChar, escDecode, ihf]
    by_cases h7 : c = Char.ofNat 12
    · subst h7
      simp +decide [parseStrBody, escChar, escDecode, ihf]
    by_cases h8 : c.toNat < 32
    · have hd1 : hexVal (hexDigit (c.toNat / 16)) = some (c.toNat / 16) :=
        hexDigit_spec _ (by omega)
      have hd2 : hexVal (hexDigit (c.toNat % 16)) = some (c.toNat % 16) :=
        hexDigit_spec _ (Nat.mod_lt _ (by norm_num))
      have hchar : Char.ofNat (4096 * 0 + 256 * 0 + 16 * (c.toNat / 16) + c.toNat % 16) = c := by
        rw [show 4096 * 0 + 256 * 0 + 16 * (c.toNat / 16) + c.toNat % 16 =
          16 * (c.toNat / 16) + c.toNat % 16 by ring, Nat.div_add_mod, Char.ofNat_toNat]
      rw [show escChar c =
          [bslash, 'u', '0', '0', hexDigit (c.toNat / 16), hexDigit (c.toNat % 16)] by
        simp [escChar, h1, h2, h3, h4, h5, h6, h7, h8]]
      simp +decide [parseStrBody, hd1, hd2, ihf, show hexVal '0' = some 0 by decide]
      rw [Nat.div_add_mod, Char.ofNat_toNat]
    · rw [show escChar c = [c] by simp [escChar, h1, h2, h3, h4, h5, h6, h7, h8]]
      simp +decide [parseStrBody, h1, h2, ihf]

/-- Every value costs at least one unit of fuel. -/
theorem jsize_pos (v : Json) : 1 ≤ jsize v := by
  cases v <;> simp [jsize]

/-- A separator position is a legitimate number stop. -/
theorem sepOk_numStop (r : List Char) (h : sepOk r) : numStop r := by
  rcases h with rfl | ⟨c, t, rfl, hc | hc | hc⟩
  · exact Or.inl rfl
  all_goals subst hc
  · exact Or.inr ⟨_, _, rfl, by decide, by decide⟩
  · exact Or.inr ⟨_, _, rfl, by decide, by decide⟩
  · exact Or.inr ⟨_, _, rfl, by decide, by decide⟩

/-- Skipping whitespace stops at a non-whitespace head. -/
theorem skipWs_cons (c : Char) (h : isJsonWs c = false) (t : List Char) :
    skipWs (c :: t) = c :: t := by
  simp [skipWs, List.dropWhile_cons, h]

/-- A decimal digit is none of the parser's structural characters. -/
theorem digit_facts (c : Char) (h : isDigitC c = true) :
    isJsonWs c = false ∧ c ≠ lbrace ∧ c ≠ '[' ∧ c ≠ '"' ∧ c ≠ '-' ∧
      c ≠ ']' ∧ c ≠ rbrace := by
  refine ⟨?_, ?_, ?_, ?_, ?_, ?_, ?_⟩
  · cases hw : isJsonWs c
    · rfl
    · exfalso
      simp only [isJsonWs, Bool.or_eq_true] at hw
      rcases hw with ((hw | hw) | hw) | hw <;>
        · rw [show c = _ from by exact_mod_cast of_decide_eq_true hw] at h
          revert h
          decide
  all_goals intro heq
  all_goals rw [heq] at h
  all_goals revert h
  all_goals decide

/-- Every serialized value starts with a non-whitespace character that
is neither a closing bracket nor a closing brace. -/
theorem serialize_head (v : Json) : ∃ c0 t0, serialize v = c0 :: t0 ∧
    isJsonWs c0 = false ∧ c0 ≠ ']' ∧ c0 ≠ rbrace := by
  cases v with
  | null => exact ⟨'n', _, rfl, by decide⟩
  | bool b =>
    cases b with
    | true => exact ⟨'t', _, rfl, by decide⟩
    | false => exact ⟨'f', _, rfl, by decide⟩
  | str s => exact ⟨'"', _, rfl, by decide⟩
  | arr xs => exact ⟨'[', _, rfl, by decide⟩
  | obj kvs => exact ⟨lbrace, _, rfl, by decide⟩
  | num d =>
    cases hneg : d.neg with
    | true =>
      have heq : serialize (Json.num d) = '-' :: (natChars d.ipart ++
          (if d.fdigits = [] then [] else '.' :: d.fdigits.map digitChar)) := by
        simp [serialize, serializeDec, hneg]
      exact ⟨'-', _, heq, by decide⟩
    | false =>
      cases hnc : natChars d.ipart with
      | nil => exact absurd hnc (natChars_ne_nil _)
      | cons c0 t0 =>
        have hd : isDigitC c0 = true := natChars_digits d.ipart c0 (by rw [hnc]; simp)
        obtain ⟨hws, _, _, _, _, hnb, hnrb⟩ := digit_facts c0 hd
        have heq : serialize (Json.num d) = c0 :: (t0 ++
            (if d.fdigits = [] then [] else '.' :: d.fdigits.map digitChar)) := by
          simp [serialize, serializeDec, hneg, hnc]
        exact ⟨c0, _, heq, hws, hnb, hnrb⟩

/-- The value parser reads back a serialized number. -/
theorem parseVal_num (fuel : ℕ) (d : Dec) (hwf : decWfB d = true) (rest : List Char)
    (hrest : sepOk rest) :
    parseVal (fuel + 1) (serialize (.num d) ++ rest) = some (.num d, rest) := by
  obtain ⟨neg, n, fd⟩ := d
  have hwf' : fd.all (· < 10) = true := hwf
  have hnum := parseNum_round n fd hwf' neg rest (sepOk_numStop rest hrest)
  cases neg with
  | true =>
    have hser : serialize (Json.num ⟨true, n, fd⟩) ++ rest =
        '-' :: (natChars n ++ ((if fd = [] then [] else '.' :: fd.map digitChar) ++ rest)) := by
      simp [serialize, serializeDec]
    rw [hser, parseVal, skipWs_cons _ (by decide) _]
    rw [List.append_assoc] at hnum
    simp +decide [hnum]
  | false =>
    cases hnc : natChars n with
    | nil => exact absurd hnc (natChars_ne_nil _)
    | cons c0 t0 =>
      have hd : isDigitC c0 = true := natChars_digits n c0 (by rw [hnc]; simp)
      obtain ⟨hws, hn1, hn2, hn3, hn4, _, _⟩ := digit_facts c0 hd
      have hser : serialize (Json.num ⟨false, n, fd⟩) ++ rest =
          c0 :: (t0 ++ ((if fd = [] then [] else '.' :: fd.map digitChar) ++ rest)) := by
        simp [serialize, serializeDec, hnc]
      rw [hnc] at hnum
      simp only [List.cons_append, List.append_assoc] at hnum
      rw [hser, parseVal, skipWs_cons c0 hws _]
      simp [hn1, hn2, hn3, hn4, hd, hnum]

/-- The value parser reads back a serialized string. -/
theorem parseVal_str (fuel : ℕ) (s : List Char) (hlen : s.length < fuel) (rest : List Char) :
    parseVal (fuel + 1) (serialize (.str s) ++ rest) = some (.str s, rest) := by
  have h := parseStrBody_round s fuel hlen rest
  have hser : serialize (Json.str s) ++ rest = '"' :: (escString s ++ '"' :: rest) := by
    simp [serialize]
  rw [hser, parseVal, skipWs_cons _ (by decide) _]
  simp +decide [h]

/-- The parser reads back every serialized well-formed value, element
list and member list, given fuel at least the value's size. -/
theorem parse_serialize_all (fuel : ℕ) :
    (∀ v : Json, jsonWfB v = true → jsize v ≤ fuel → ∀ rest : List Char, sepOk rest →
      parseVal fuel (serialize v ++ rest) = some (v, rest)) ∧
    (∀ xs : JList, xs ≠ .nil → jlistWfB xs = true → jsizeL xs ≤ fuel → ∀ rest : List Char,
      sepOk rest → parseItems fuel (serializeItems xs ++ ']' :: rest) = some (xs, rest)) ∧
    (∀ kvs : JObj, kvs ≠ .nil → jobjWfB kvs = true → jsizeO kvs ≤ fuel → ∀ rest : List Char,
      sepOk rest → parseMembers fuel (serializeMembers kvs ++ rbrace :: rest) =
        some (kvs, rest)) := by
  induction fuel with
  | zero =>
    refine ⟨fun v _ hsz => absurd hsz (by have := jsize_pos v; omega), ?_, ?_⟩
    · intro xs hne _ hsz
      cases xs with
      | nil => exact absurd rfl hne
      | cons x t => exact absurd hsz (by simp [jsizeL])
    · intro kvs hne _ hsz
      cases kvs with
      | nil => exact absurd rfl hne
      | cons k v t => exact absurd hsz (by simp [jsizeO])
  | succ fuel ih =>
    obtain ⟨ihv, ihi, ihm⟩ := ih
    refine ⟨?_, ?_, ?_⟩
    · -- values
      intro v hwf hsz rest hrest
      cases v with
      | null =>
        rw [show serialize Json.null ++ rest = 'n' :: ('u' :: 'l' :: 'l' :: rest) from rfl,
          parseVal, skipWs_cons _ (by decide) _]
        simp +decide
      | bool b =>
        cases b with
        | true =>
          rw [show serialize (Json.bool true) ++ rest = 't' :: ('r' :: 'u' :: 'e' :: rest)
            from rfl, parseVal, skipWs_cons _ (by decide) _]
          simp +decide
        | false =>
          rw [show serialize (Json.bool false) ++ rest = 'f' :: ('a' :: 'l' :: 's' :: 'e' :: rest)
            from rfl, parseVal, skipWs_cons _ (by decide) _]
          simp +decide
      | num d => exact parseVal_num fuel d hwf rest hrest
      | str s =>
        have hlen : s.length < fuel := by
          have : jsize (Json.str s) = s.length + 2 := rfl
          omega
        exact parseVal_str fuel s hlen rest
      | arr xs =>
        cases xs with
        | nil =>
          rw [show serialize (Json.arr .nil) ++ rest = '[' :: (']' :: rest) from rfl,
            parseVal, skipWs_cons _ (by decide) _]
          simp +decide [skipWs_cons ']' (by decide)]
        | cons x t =>
          have hsz' : jsizeL (JList.cons x t) ≤ fuel := by
            have : jsize (Json.arr (JList.cons x t)) = 1 + jsizeL (JList.cons x t) := rfl
            omega
          have hitems := ihi (JList.cons x t) (by simp) hwf hsz' rest hrest
          obtain ⟨c0, t0, hs0, hws0, hnb0, _⟩ := serialize_head x
          have hhead : ∃ w, serializeItems (JList.cons x t) = c0 :: w := by
            cases t with
            | nil => exact ⟨t0, by simp [serializeItems, hs0]⟩
            | cons y t2 =>
              exact ⟨t0 ++ ',' :: serializeItems (JList.cons y t2),
                by simp [serializeItems, hs0]⟩
          obtain ⟨w, hw⟩ := hhead
          rw [hw] at hitems
          simp only [List.cons_append] at hitems
          have hser : serialize (Json.arr (JList.cons x t)) ++ rest =
              '[' :: (c0 :: (w ++ ']' :: rest)) := by
            simp [serialize, hw]
          rw [hser, parseVal, skipWs_cons _ (by decide) _]
          simp +decide [skipWs_cons c0 hws0, hnb0, hitems]
      | obj kvs =>
        cases kvs with
        | nil =>
          rw [show serialize (Json.obj .nil) ++ rest = lbrace :: (rbrace :: rest) from rfl,
            parseVal, skipWs_cons _ (by decide) _]
          simp +decide [skipWs_cons rbrace (by decide)]
        | cons k v t =>
          have hsz' : jsizeO (JObj.cons k v t) ≤ fuel := by
            have : jsize (Json.obj (JObj.cons k v t)) = 1 + jsizeO (JObj.cons k v t) := rfl
            omega
          have hmem := ihm (JObj.cons k v t) (by simp) hwf hsz' rest hrest
          have hhead : ∃ w, serializeMembers (JObj.cons k v t) = '"' :: w := by
            cases t with
            | nil => exact ⟨escString k ++ '"' :: ':' :: serialize v, by simp [serializeMembers]⟩
            | cons k2 v2 t2 =>
              exact ⟨escString k ++ '"' :: ':' :: serialize v ++
                ',' :: serializeMembers (JObj.cons k2 v2 t2), by simp [serializeMembers]⟩
          obtain ⟨w, hw⟩ := hhead
          rw [hw] at hmem
          simp only [List.cons_append] at hmem
          have hser : serialize (Json.obj (JObj.cons k v t)) ++ rest =
              lbrace :: ('"' :: (w ++ rbrace :: rest)) := by
            simp [serialize, hw]
          rw [hser, parseVal, skipWs_cons _ (by decide) _]
          simp +decide [skipWs_cons '"' (by decide), hmem]
    · -- array elements
      intro xs hne hwf hsz rest hrest
      cases xs with
      | nil => exact absurd rfl hne
      | cons x t =>
        have hwf2 : jsonWfB x = true ∧ jlistWfB t = true := by
          have h0 : jlistWfB (JList.cons x t) = (jsonWfB x && jlistWfB t) := rfl
          rw [h0, Bool.and_eq_true] at hwf
          exact hwf
        have hszx : jsize x ≤ fuel := by
          have h0 : jsizeL (JList.cons x t) = 1 + jsize x + jsizeL t := rfl
          omega
        cases t with
        | nil =>
          have hval := ihv x hwf2.1 hszx (']' :: rest) (Or.inr ⟨_, _, rfl, by decide⟩)
          rw [show serializeItems (JList.cons x .nil) ++ ']' :: rest =
              serialize x ++ ']' :: rest by simp [serializeItems],
            parseItems, hval]
          simp +decide [skipWs_cons ']' (by decide)]
        | cons y t2 =>
          have hszt : jsizeL (JList.cons y t2) ≤ fuel := by
            have h1 : jsizeL (JList.cons x (JList.cons y t2)) =
                1 + jsize x + jsizeL (JList.cons y t2) := rfl
            omega
          have hval := ihv x hwf2.1 hszx
            (',' :: (serializeItems (JList.cons y t2) ++ ']' :: rest))
            (Or.inr ⟨_, _, rfl, by decide⟩)
          have htail := ihi (JList.cons y t2) (by simp) hwf2.2 hszt rest hrest
          rw [show serializeItems (JList.cons x (JList.cons y t2)) ++ ']' :: rest =
              serialize x ++ (',' :: (serializeItems (JList.cons y t2) ++ ']' :: rest)) by
            simp [serializeItems],
            parseItems, hval]
          simp +decide [skipWs_cons ',' (by decide), htail]
    · -- object members
      intro kvs hne hwf hsz rest hrest
      cases kvs with
      | nil => exact absurd rfl hne
      | cons k v t =>
        have hwf2 : jsonWfB v = true ∧ jobjWfB t = true := by
          have h0 : jobjWfB (JObj.cons k v t) = (jsonWfB v && jobjWfB t) := rfl
          rw [h0, Bool.and_eq_true] at hwf
          exact hwf
        have hszo : jsizeO (JObj.cons k v t) = k.length + 2 + jsize v + jsizeO t := rfl
        have hklen : k.length < fuel := by omega
        have hszv : jsize v ≤ fuel := by omega
        have hkey := parseStrBody_round k fuel hklen
        cases t with
        | nil =>
          have hval := ihv v hwf2.1 hszv (rbrace :: rest) (Or.inr ⟨_, _, rfl, by decide⟩)
          rw [show serializeMembers (JObj.cons k v .nil) ++ rbrace :: rest =
              '"' :: (escString k ++ '"' :: (':' :: (serialize v ++ rbrace :: rest))) by
            simp [serializeMembers],
            parseMembers, skipWs_cons '"' (by decide) _]
          simp +decide [hkey, skipWs_cons ':' (by decide), hval, skipWs_cons rbrace (by decide)]
        | cons k2 v2 t2 =>
          have hszt : jsizeO (JObj.cons k2 v2 t2) ≤ fuel := by
            have h1 : jsizeO (JObj.cons k v (JObj.cons k2 v2 t2)) =
                k.length + 2 + jsize v + jsizeO (JObj.cons k2 v2 t2) := rfl
            omega
          have hval := ihv v hwf2.1 hszv
            (',' :: (serializeMembers (JObj.cons k2 v2 t2) ++ rbrace :: rest))
            (Or.inr ⟨_, _, rfl, by decide⟩)
          have htail := ihm (JObj.cons k2 v2 t2) (by simp) hwf2.2 hszt rest hrest
          rw [show serializeMembers (JObj.cons k v (JObj.cons k2 v2 t2)) ++ rbrace :: rest =
              '"' :: (escString k ++ '"' :: (':' :: (serialize v ++
                (',' :: (serializeMembers (JObj.cons k2 v2 t2) ++ rbrace :: rest))))) by
            simp [serializeMembers],
            parseMembers, skipWs_cons '"' (by decide) _]
          simp +decide [hkey, skipWs_cons ':' (by decide), hval, htail,
            skipWs_cons ',' (by decide)]

/-- Escaping a character never produces an empty encoding. -/
theorem escChar_len (c : Char) : 1 ≤ (escChar c).length := by
  unfold escChar
  split_ifs <;> simp

/-- Escaping cannot shorten a string. -/
theorem escString_len (s : List Char) : s.length ≤ (escString s).length := by
  induction s with
  | nil => simp [escString]
  | cons c cs ih =>
    have h := escChar_len c
    simp only [escString, List.map_cons, List.flatten_cons, List.length_append,
      List.length_cons]
    simp only [escString] at ih
    omega

/-- A serialized numeral is nonempty. -/
theorem serializeDec_len (d : Dec) : 1 ≤ (serializeDec d).length := by
  have h := natChars_ne_nil d.ipart
  cases hnc : natChars d.ipart with
  | nil => exact absurd hnc h
  | cons a t =>
    simp [serializeDec, hnc]
    omega

/-- The fuel needed to parse a value back never exceeds the length of
its serialization (plus one for the separators of a list). -/
theorem jsize_le_aux (n : ℕ) :
    (∀ v : Json, sizeOf v < n → jsize v ≤ (serialize v).length) ∧
    (∀ xs : JList, sizeOf xs < n → jsizeL xs ≤ (serializeItems xs).length + 1) ∧
    (∀ kvs : JObj, sizeOf kvs < n → jsizeO kvs ≤ (serializeMembers kvs).length + 1) := by
  induction n with
  | zero =>
    exact ⟨fun v h => absurd h (by omega), fun xs h => absurd h (by omega),
      fun kvs h => absurd h (by omega)⟩
  | succ n ih =>
    obtain ⟨ihv, ihl, iho⟩ := ih
    refine ⟨?_, ?_, ?_⟩
    · intro v hv
      cases v with
      | null => simp [jsize, serialize]
      | bool b => cases b <;> simp [jsize, serialize]
      | num d =>
        have h := serializeDec_len d
        have hs : serialize (Json.num d) = serializeDec d := rfl
        rw [hs]
        have hj : jsize (Json.num d) = 1 := rfl
        omega
      | str s =>
        have h := escString_len s
        have hs : (serialize (Json.str s)).length = (escString s).length + 2 := by
          simp [serialize]
        have hj : jsize (Json.str s) = s.length + 2 := rfl
        omega
      | arr xs =>
        have hsx : sizeOf xs < n := by
          have h0 : sizeOf (Json.arr xs) = 1 + sizeOf xs := by simp
          omega
        have h := ihl xs hsx
        have hs : (serialize (Json.arr xs)).length = (serializeItems xs).length + 2 := by
          simp [serialize]
        have hj : jsize (Json.arr xs) = 1 + jsizeL xs := rfl
        omega
      | obj kvs =>
        have hsx : sizeOf kvs < n := by
          have h0 : sizeOf (Json.obj kvs) = 1 + sizeOf kvs := by simp
          omega
        have h := iho kvs hsx
        have hs : (serialize (Json.obj kvs)).length = (serializeMembers kvs).length + 2 := by
          simp [serialize]
        have hj : jsize (Json.obj kvs) = 1 + jsizeO kvs := rfl
        omega
    · intro xs hxs
      cases xs with
      | nil => simp [jsizeL, serializeItems]
      | cons x t =>
        have hsz : sizeOf x < n ∧ sizeOf t < n := by
          have h0 : sizeOf (JList.cons x t) = 1 + sizeOf x + sizeOf t := by simp
          constructor <;> omega
        have hx := ihv x hsz.1
        have hj : jsizeL (JList.cons x t) = 1 + jsize x + jsizeL t := rfl
        cases t with
        | nil =>
          have hs : serializeItems (JList.cons x .nil) = serialize x := rfl
          have hjt : jsizeL JList.nil = 0 := rfl
          rw [hj, hs, hjt]
          omega
        | cons y t2 =>
          have ht := ihl (JList.cons y t2) hsz.2
          have hs : (serializeItems (JList.cons x (JList.cons y t2))).length =
              (serialize x).length + 1 + (serializeItems (JList.cons y t2)).length := by
            have h0 : serializeItems (JList.cons x (JList.cons y t2)) =
                serialize x ++ ',' :: serializeItems (JList.cons y t2) := rfl
            simp [h0]
            omega
          rw [hj, hs]
          omega
    · intro kvs hkvs
      cases kvs with
      | nil => simp [jsizeO, serializeMembers]
      | cons k v t =>
        have hsz : sizeOf v < n ∧ sizeOf t < n := by
          have h0 : sizeOf (JObj.cons k v t) = 1 + sizeOf k + sizeOf v + sizeOf t := by simp
          constructor <;> omega
        have hv := ihv v hsz.1
        have hk := escString_len k
        have hj : jsizeO (JObj.cons k v t) = k.length + 2 + jsize v + jsizeO t := rfl
        cases t with
        | nil =>
          have hs : (serializeMembers (JObj.cons k v .nil)).length =
              (escString k).length + 3 + (serialize v).length := by
            have h0 : serializeMembers (JObj.cons k v .nil) =
                '"' :: escString k ++ '"' :: ':' :: serialize v := rfl
            simp [h0]
            omega
          have hjt : jsizeO JObj.nil = 0 := rfl
          rw [hj, hs, hjt]
          omega
        | cons k2 v2 t2 =>
          have ht := iho (JObj.cons k2 v2 t2) hsz.2
          have hs : (serializeMembers (JObj.cons k v (JObj.cons k2 v2 t2))).length =
              (escString k).length + 4 + (serialize v).length +
                (serializeMembers (JObj.cons k2 v2 t2)).length := by
            have h0 : serializeMembers (JObj.cons k v (JObj.cons k2 v2 t2)) =
                '"' :: escString k ++ '"' :: ':' :: serialize v ++
                  ',' :: serializeMembers (JObj.cons k2 v2 t2) := rfl
            simp [h0]
            omega
          rw [hj, hs]
          omega

/-- Parsing `JSON.parse` reads back every serialized well-formed value. -/
theorem jsonParse_serialize (v : Json) (hwf : jsonWfB v = true) :
    jsonParse (serialize v) = .ok v := by
  have hle : jsize v ≤ (serialize v).length := (jsize_le_aux (sizeOf v + 1)).1 v (by omega)
  have h := (parse_serialize_all ((serialize v).length + 1)).1 v hwf (by omega) [] (Or.inl rfl)
  rw [List.append_nil] at h
  rw [jsonParse, h]
  simp [skipWs]

/-- Trimming does not touch a text wrapped in braces. -/
theorem trimL_braced (m : List Char) :
    trimL (lbrace :: (m ++ [rbrace])) = lbrace :: (m ++ [rbrace]) := by
  unfold trimL
  rw [List.dropWhile_cons_of_neg (by decide)]
  rw [show (lbrace :: (m ++ [rbrace])).reverse = rbrace :: (m.reverse ++ [lbrace]) by simp]
  rw [List.dropWhile_cons_of_neg (by decide)]
  simp

/-- Fence stripping does not touch a text starting with a brace. -/
theorem stripFenceStart_braced (t : List Char) :
    stripFenceStart (lbrace :: t) = lbrace :: t := by
  have h3 : startsL [btick, btick, btick] (lbrace :: t) = false := by
    rw [show startsL [btick, btick, btick] (lbrace :: t) =
      ((btick = lbrace) && startsL [btick, btick] t) from rfl]
    simp +decide
  simp only [stripFenceStart, h3, Bool.false_eq_true, if_false]

/-- Fence stripping does not touch a text ending with a brace. -/
theorem stripFenceEnd_braced (m : List Char) :
    stripFenceEnd (lbrace :: (m ++ [rbrace])) = lbrace :: (m ++ [rbrace]) := by
  have h1 : (lbrace :: (m ++ [rbrace])).reverse = rbrace :: (m.reverse ++ [lbrace]) := by
    simp
  have h2 : List.dropWhile isTrimWs (rbrace :: (m.reverse ++ [lbrace])) =
      rbrace :: (m.reverse ++ [lbrace]) := List.dropWhile_cons_of_neg (by decide)
  have h3 : startsL [btick, btick, btick] (rbrace :: (m.reverse ++ [lbrace])) = false := by
    rw [show startsL [btick, btick, btick] (rbrace :: (m.reverse ++ [lbrace])) =
      ((btick = rbrace) && startsL [btick, btick] (m.reverse ++ [lbrace])) from rfl]
    simp +decide
  simp only [stripFenceEnd, h1, h2, h3, Bool.false_eq_true, if_false]

/-- Cleaning does not touch a serialized object. -/
theorem cleanOf_obj (kvs : JObj) :
    cleanOf (serialize (.obj kvs)) = serialize (.obj kvs) := by
  have hshape : serialize (Json.obj kvs) = lbrace :: (serializeMembers kvs ++ [rbrace]) := by
    simp [serialize]
  rw [cleanOf, hshape, trimL_braced, stripFenceStart_braced, stripFenceEnd_braced,
    trimL_braced]

/-- Extraction via `extractJson` recovers every serialized well-formed object. -/
theorem extractJson_serialize_obj (kvs : JObj) (hwf : jsonWfB (.obj kvs) = true) :
    extractJson (serialize (.obj kvs)) = .ok (.obj kvs) := by
  rw [extractJson, cleanOf_obj, jsonParse_serialize _ hwf]

/-- C6: when the parse succeeds, the defaults are exactly these:
howYouFelt is the trimmed string value and the empty string when
absent, weeklySummary defaults to the empty string when absent, each of
the three list fields is the parsed array when the value is an array
and the empty sequence otherwise, and confidence is the parsed value
when it is a number and 0.5 otherwise. -/
theorem parse_defaults (text : List Char) (r : InsightResponse)
    (h : parseOpenAIInsights text = .ok r) :
    ∃ j, extractJson text = .ok j ∧
      (getField j keyHowYouFelt = none → r.howYouFelt = []) ∧
      (∀ s, getField j keyHowYouFelt = some (.str s) → r.howYouFelt = trimL s) ∧
      (getField j keyWeeklySummary = none → r.weeklySummary = .str []) ∧
      (∀ xs, getField j keyMoodDrivers = some (.arr xs) → r.moodDrivers = xs) ∧
      (isArrOpt (getField j keyMoodDrivers) = false → r.moodDrivers = .nil) ∧
      (∀ xs, getField j keyPatterns = some (.arr xs) → r.patterns = xs) ∧
      (isArrOpt (getField j keyPatterns) = false → r.patterns = .nil) ∧
      (∀ xs, getField j keySuggestions = some (.arr xs) → r.suggestions = xs) ∧
      (isArrOpt (getField j keySuggestions) = false → r.suggestions = .nil) ∧
      (∀ d, getField j keyConfidence = some (.num d) → r.confidence = d) ∧
      (isNumOpt (getField j keyConfidence) = false → r.confidence = decHalf) := by
  cases hex : extractJson text with
  | error e => rw [parseOpenAIInsights, hex] at h; exact absurd h (by simp [Except.map])
  | ok j =>
    rw [parseOpenAIInsights, hex] at h
    simp only [Except.map, Except.ok.injEq] at h
    subst h
    refine ⟨j, rfl, ?_, ?_, ?_, ?_, ?_, ?_, ?_, ?_, ?_, ?_, ?_⟩
    · intro hf; simp [parseFields, hf, jsOrEmptyStr, jsToString, trimL]
    · intro s hf
      simp only [parseFields, hf, jsOrEmptyStr]
      by_cases hs : s.isEmpty
      · rw [List.isEmpty_iff] at hs
        subst hs
        simp [jsTruthy, jsToString]
      · simp [jsTruthy, hs, jsToString]
    · intro hf; simp [parseFields, hf, jsOrEmptyStr]
    · intro xs hf; simp [parseFields, hf, arrOrEmpty]
    · intro hf; exact arrOrEmpty_of_not_arr _ hf
    · intro xs hf; simp [parseFields, hf, arrOrEmpty]
    · intro hf; exact arrOrEmpty_of_not_arr _ hf
    · intro xs hf; simp [parseFields, hf, arrOrEmpty]
    · intro hf; exact arrOrEmpty_of_not_arr _ hf
    · intro d hf; simp [parseFields, hf, numOrHalf]
    · intro hf; exact numOrHalf_of_not_num _ hf

/-- C6 witness: the defaults theorem applied to a response missing the
three list fields and the confidence. -/
theorem parse_defaults_witness :
    ∃ j, extractJson limitedText = .ok j ∧
      (getField j keyHowYouFelt = none → limitedResponse.howYouFelt = []) ∧
      (∀ s, getField j keyHowYouFelt = some (.str s) →
        limitedResponse.howYouFelt = trimL s) ∧
      (getField j keyWeeklySummary = none → limitedResponse.weeklySummary = .str []) ∧
      (∀ xs, getField j keyMoodDrivers = some (.arr xs) →
        limitedResponse.moodDrivers = xs) ∧
      (isArrOpt (getField j keyMoodDrivers) = false →
        limitedResponse.moodDrivers = .nil) ∧
      (∀ xs, getField j keyPatterns = some (.arr xs) → limitedResponse.patterns = xs) ∧
      (isArrOpt (getField j keyPatterns) = false → limitedResponse.patterns = .nil) ∧
      (∀ xs, getField j keySuggestions = some (.arr xs) →
        limitedResponse.suggestions = xs) ∧
      (isArrOpt (getField j keySuggestions) = false →
        limitedResponse.suggestions = .nil) ∧
      (∀ d, getField j keyConfidence = some (.num d) → limitedResponse.confidence = d) ∧
      (isNumOpt (getField j keyConfidence) = false →
        limitedResponse.confidence = decHalf) :=
  parse_defaults limitedText limitedResponse (by rfl)

/-- C7 counterexample: the parser accepts a response whose confidence
is 2, and passes the value through unclamped, so the resulting
confidence lies outside `[0, 1]`. -/
theorem confidence_unclamped :
    parseOpenAIInsights conf2Text =
      .ok { howYouFelt := [], weeklySummary := .str [], moodDrivers := .nil,
            patterns := .nil, suggestions := .nil, confidence := ⟨false, 2, []⟩ } ∧
    Dec.toRat ⟨false, 2, []⟩ = 2 ∧ ¬ ((2 : ℚ) ≤ 1) := by
  refine ⟨by rfl, ?_, by norm_num⟩
  simp [Dec.toRat, fracVal]

/-- C7 (amended): for every accepted raw text the confidence is either
the default 0.5, which does lie in `[0, 1]`, or the input's own numeric
value passed through with no clamping, so it lies in `[0, 1]` exactly
when the input's value does. -/
theorem confidence_passthrough (text : List Char) (r : InsightResponse)
    (h : parseOpenAIInsights text = .ok r) :
    (r.confidence = decHalf ∧ (0 : ℚ) ≤ decHalf.toRat ∧ decHalf.toRat ≤ 1) ∨
    (∃ j, extractJson text = .ok j ∧
      getField j keyConfidence = some (.num r.confidence)) := by
  have hhalf : (0 : ℚ) ≤ decHalf.toRat ∧ decHalf.toRat ≤ 1 := by
    constructor <;> · simp [decHalf, Dec.toRat, fracVal]; norm_num
  cases hex : extractJson text with
  | error e => rw [parseOpenAIInsights, hex] at h; exact absurd h (by simp [Except.map])
  | ok j =>
    rw [parseOpenAIInsights, hex] at h
    simp only [Except.map, Except.ok.injEq] at h
    subst h
    cases hf : getField j keyConfidence with
    | none => exact Or.inl ⟨by simp [parseFields, hf, numOrHalf], hhalf⟩
    | some v =>
      cases v with
      | num d => exact Or.inr ⟨j, rfl, by simp [parseFields, hf, numOrHalf]⟩
      | null => exact Or.inl ⟨by simp [parseFields, hf, numOrHalf], hhalf⟩
      | bool b => exact Or.inl ⟨by simp [parseFields, hf, numOrHalf], hhalf⟩
      | str s => exact Or.inl ⟨by simp [parseFields, hf, numOrHalf], hhalf⟩
      | arr xs => exact Or.inl ⟨by simp [parseFields, hf, numOrHalf], hhalf⟩
      | obj kvs => exact Or.inl ⟨by simp [parseFields, hf, numOrHalf], hhalf⟩

/-- C7 witness: the pass-through characterisation applied to the
response with confidence 2. -/
theorem confidence_passthrough_witness :
    (conf2Response.confidence = decHalf ∧
      (0 : ℚ) ≤ decHalf.toRat ∧ decHalf.toRat ≤ 1) ∨
    (∃ j, extractJson conf2Text = .ok j ∧
      getField j keyConfidence = some (.num conf2Response.confidence)) :=
  confidence_passthrough conf2Text conf2Response (by rfl)

/-- C8: whenever both the direct parse of the cleaned text and the
brace-span fallback fail, the raised error carries the original
pre-strip raw text verbatim together with the underlying parser's
message; a cleaned text with no opening brace at all never has a brace
span. -/
theorem parse_error_carries_raw (text : List Char) (m : String)
    (hdirect : jsonParse (cleanOf text) = .error m) :
    (braceSpan (cleanOf text) = none →
      extractJson text = .error ⟨"No JSON found in response", text, some m⟩) ∧
    (∀ sp m2, braceSpan (cleanOf text) = some sp → jsonParse sp = .error m2 →
      extractJson text = .error ⟨"Failed to parse JSON from response", text, some m2⟩) ∧
    ((∀ c ∈ cleanOf text, c ≠ lbrace) → braceSpan (cleanOf text) = none) := by
  refine ⟨?_, ?_, ?_⟩
  · intro hsp
    rw [extractJson, hdirect, hsp]
  · intro sp m2 hsp hm2
    rw [extractJson, hdirect, hsp]
    dsimp only
    rw [hm2]
  · intro hno
    have : (cleanOf text).findIdx? (· = lbrace) = none := by
      rw [List.findIdx?_eq_none_iff]
      intro c hc
      simp [hno c hc]
    rw [braceSpan, this]

/-- C8 witness: the error theorem applied to fenced prose; the carried
raw text is the original fenced text, not the cleaned one. -/
theorem parse_error_carries_raw_witness :
    (braceSpan (cleanOf proseText) = none →
      extractJson proseText =
        .error ⟨"No JSON found in response", proseText, some "Unexpected token in JSON"⟩) ∧
    (∀ sp m2, braceSpan (cleanOf proseText) = some sp → jsonParse sp = .error m2 →
      extractJson proseText =
        .error ⟨"Failed to parse JSON from response", proseText, some m2⟩) ∧
    ((∀ c ∈ cleanOf proseText, c ≠ lbrace) → braceSpan (cleanOf proseText) = none) :=
  parse_error_carries_raw proseText "Unexpected token in JSON" (by rfl)

/-- Arrays of strings are always digit-well-formed. -/
theorem strJList_wf (l : List (List Char)) : jlistWfB (strJList l) = true := by
  induction l with
  | nil => rfl
  | cons s t ih =>
    have h0 : jlistWfB (strJList (s :: t)) = (jsonWfB (.str s) && jlistWfB (strJList t)) := rfl
    rw [h0, ih]
    rfl

/-- An insight object is well-formed whenever its confidence numeral
is. -/
theorem mkInsightObj_wf (h w : List Char) (dr pt sg : List (List Char)) (conf : Dec)
    (hconf : decWfB conf = true) :
    jsonWfB (mkInsightObj h w dr pt sg conf) = true := by
  simp [mkInsightObj, jsonWfB, jobjWfB, strJList_wf, hconf]

/-- C5 (amended): serializing a fully-populated `InsightResult`-shaped
object and running it through the response parser returns the original
values exactly — provided `howYouFelt` is already trimmed, since the
parser unconditionally trims that one field. -/
theorem insights_roundtrip (h w : List Char) (dr pt sg : List (List Char)) (conf : Dec)
    (hconf : decWfB conf = true) (hh : trimL h = h) :
    parseOpenAIInsights (serialize (mkInsightObj h w dr pt sg conf)) =
      .ok { howYouFelt := h, weeklySummary := .str w, moodDrivers := strJList dr,
            patterns := strJList pt, suggestions := strJList sg, confidence := conf } := by
  have hex : extractJson (serialize (mkInsightObj h w dr pt sg conf)) =
      .ok (mkInsightObj h w dr pt sg conf) :=
    extractJson_serialize_obj _ (mkInsightObj_wf h w dr pt sg conf hconf)
  rw [parseOpenAIInsights, hex]
  simp only [Except.map]
  have g1 : getField (mkInsightObj h w dr pt sg conf) keyHowYouFelt = some (.str h) := rfl
  have g2 : getField (mkInsightObj h w dr pt sg conf) keyWeeklySummary = some (.str w) := rfl
  have g3 : getField (mkInsightObj h w dr pt sg conf) keyMoodDrivers =
      some (.arr (strJList dr)) := rfl
  have g4 : getField (mkInsightObj h w dr pt sg conf) keyPatterns =
      some (.arr (strJList pt)) := rfl
  have g5 : getField (mkInsightObj h w dr pt sg conf) keySuggestions =
      some (.arr (strJList sg)) := rfl
  have g6 : getField (mkInsightObj h w dr pt sg conf) keyConfidence = some (.num conf) := rfl
  have fh : trimL (jsToString (jsOrEmptyStr (some (.str h)))) = h := by
    by_cases hnil : h = []
    · subst hnil
      rfl
    · have hie : h.isEmpty = false := by
        cases h with
        | nil => exact absurd rfl hnil
        | cons a t => rfl
      rw [show jsOrEmptyStr (some (.str h)) = if jsTruthy (.str h) then .str h else .str []
          from rfl,
        show jsTruthy (.str h) = !h.isEmpty from rfl, hie]
      simp [jsToString, hh]
  have fw : jsOrEmptyStr (some (.str w)) = .str w := by
    by_cases hnil : w = []
    · subst hnil
      rfl
    · have hie : w.isEmpty = false := by
        cases w with
        | nil => exact absurd rfl hnil
        | cons a t => rfl
      rw [show jsOrEmptyStr (some (.str w)) = if jsTruthy (.str w) then .str w else .str []
          from rfl,
        show jsTruthy (.str w) = !w.isEmpty from rfl, hie]
      rfl
  simp only [parseFields, g1, g2, g3, g4, g5, g6, fh, fw, arrOrEmpty, numOrHalf]

/-- C5 counterexample: a valid `InsightResult`-shaped object with an
untrimmed `howYouFelt` does not survive the round trip: the parser
returns the trimmed text, not the original. -/
theorem roundtrip_trims_howYouFelt :
    parseOpenAIInsights (serialize untrimmedObj) =
      .ok { howYouFelt := "hi".toList, weeklySummary := .str "ok".toList,
            moodDrivers := .nil, patterns := .nil, suggestions := .nil,
            confidence := decHalf } ∧
    "hi".toList ≠ " hi ".toList := by
  exact ⟨by rfl, by decide⟩

/-- C5 witness: the amended round trip applied to a concrete
fully-populated response. -/
theorem insights_roundtrip_witness :
    parseOpenAIInsights (serialize (mkInsightObj "felt calm".toList "a week".toList
        ["sleep".toList] ["walks".toList] ["journal".toList] ⟨false, 0, [7, 5]⟩)) =
      .ok { howYouFelt := "felt calm".toList, weeklySummary := .str "a week".toList,
            moodDrivers := strJList ["sleep".toList],
            patterns := strJList ["walks".toList],
            suggestions := strJList ["journal".toList],
            confidence := ⟨false, 0, [7, 5]⟩ } :=
  insights_roundtrip "felt calm".toList "a week".toList ["sleep".toList] ["walks".toList]
    ["journal".toList] ⟨false, 0, [7, 5]⟩ (by decide) (by decide)

end Ink
